import Mathlib

/-!
# DDCylinderMeasLayer

A shallow embedding of `src/src/DDCylinderMeasLayer.cc`: the cylindrical
measurement layer of DDKalTest, with its four operations `XvToMv`, `HitToXv`,
`CalcDhDa` and `ConvertLCIOTrkHit`.

Conventions of the embedding.

* `Double_t` is an exact number: the code that calls `atan2`, `cos`, `sin` or
  `sqrt` is written over the real numbers, and the matrix code (`CalcDhDa`) over
  any type with the arithmetic operations, so that it runs on rationals.
* Two cases of IEEE arithmetic change what the code returns and are modelled.
  Division by zero: over a field the quotient `x / 0` is `0` by convention;
  `CalcDhDa` on `Double_t K`, the exact values with the infinities and NaN,
  gives the special values the source computes, and `CalcDhDa_toDouble_t` shows
  that off the axis it is `CalcDhDa` on the exact values. Negative zero:
  `XvToMv.phiIEEE` carries the sign of a zero `xxv.Y()`, which `atan2` reads,
  and `phiIEEE_false` shows that without a negative zero it is `XvToMv.phi`.
* A `TKalMatrix` carries its dimensions; an element access outside of them
  makes the operation return `none`.
* The pointer argument of `ConvertLCIOTrkHit` is an `Option`; `NULL` is `none`.
* `CalcDhDa.events` lists the element accesses and the divisions of `CalcDhDa`
  in the order of its statements; `CalcDhDa_some_iff` shows that `CalcDhDa`
  returns a matrix exactly when all the listed accesses are within bounds.
-/

namespace DDKalTest

/-! ## Data model -/

/-- Three-vector of ROOT (`TVector3`), with the components `X()`, `Y()`, `Z()`. -/
structure TVector3 (α : Type) where
  X : α
  Y : α
  Z : α

/-- Component-wise difference, `operator-` of `TVector3`. -/
def TVector3.sub {α : Type} [Sub α] (a b : TVector3 α) : TVector3 α :=
  ⟨a.X - b.X, a.Y - b.Y, a.Z - b.Z⟩

/-- Matrix of KalTest (`TKalMatrix`): the dimensions and the entries. Only the
entries below the dimensions are part of the matrix. -/
structure TKalMatrix (α : Type) where
  nrows : Nat
  ncols : Nat
  elem : Nat → Nat → α

/-- Number of columns, `GetNcols()`. -/
def TKalMatrix.GetNcols {α : Type} (M : TKalMatrix α) : Nat := M.ncols

/-- Checked read `M(r, c)`. -/
def TKalMatrix.get? {α : Type} (M : TKalMatrix α) (r c : Nat) : Option α :=
  if r < M.nrows ∧ c < M.ncols then some (M.elem r c) else none

/-- Checked write `M(r, c) = v`; every other entry is kept. -/
def TKalMatrix.set? {α : Type} (M : TKalMatrix α) (r c : Nat) (v : α) :
    Option (TKalMatrix α) :=
  if r < M.nrows ∧ c < M.ncols then
    some { M with elem := fun a b => if a = r ∧ b = c then v else M.elem a b }
  else none

/-- Scalar multiple `k * J` of a matrix. -/
def TKalMatrix.scale {α : Type} [Mul α] (k : α) (J : TKalMatrix α) : TKalMatrix α :=
  { J with elem := fun r c => k * J.elem r c }

/-- Dimension of the measurement vector (`kMdim` of the header, two). -/
def kMdim : Nat := 2

/-- The measurement layer. The members the source reads through `GetR()`,
`GetXc()`, `GetBz()` and the membership test `IsOnSurface`, whose body is not
part of the source file and is therefore a parameter of the layer. -/
structure DDCylinderMeasLayer (α : Type) where
  GetR : α
  GetXc : TVector3 α
  GetBz : α
  IsOnSurface : TVector3 α → Bool

/-! ## Global to local coordinates -/

/-- The constant `kPi = TMath::Pi()`. -/
noncomputable def kPi : ℝ := Real.pi

/-- The constant `kTwoPi = 2 * kPi`. -/
noncomputable def kTwoPi : ℝ := 2 * kPi

/-- The C library function `atan2(y, x)`: the principal argument of the point
`(x, y)`, that is of the complex number `x + i y`. -/
noncomputable def atan2 (y x : ℝ) : ℝ := Complex.arg ⟨x, y⟩

/-- ROOT's `TMath::ATan2(y, x)`: `atan2` guarded on `x = 0`, where the value is
fixed to `0`, `Pi()/2` or `-Pi()/2` by the sign of `y`. -/
noncomputable def ATan2 (y x : ℝ) : ℝ :=
  if x ≠ 0 then atan2 y x
  else if y = 0 then 0
  else if y > 0 then Real.pi / 2
  else -Real.pi / 2

/-- First loop of the normalisation: `while (phi < -kPi) phi += kTwoPi;`. -/
noncomputable def XvToMv.whileBelow (phi : ℝ) : ℝ :=
  if _h : phi < -kPi then XvToMv.whileBelow (phi + kTwoPi) else phi
termination_by ⌈(-kPi - phi) / kTwoPi⌉.toNat
decreasing_by
  have h2 : 0 < kTwoPi := by unfold kTwoPi kPi; linarith [Real.pi_pos]
  have e : (-kPi - (phi + kTwoPi)) / kTwoPi = (-kPi - phi) / kTwoPi - 1 := by
    field_simp; ring
  rw [e, Int.ceil_sub_one]
  have hp : 0 < (-kPi - phi) / kTwoPi := div_pos (by linarith) h2
  have := Int.ceil_pos.mpr hp
  omega

/-- Second loop of the normalisation: `while (phi > kPi) phi -= kTwoPi;`. -/
noncomputable def XvToMv.whileAbove (phi : ℝ) : ℝ :=
  if _h : phi > kPi then XvToMv.whileAbove (phi - kTwoPi) else phi
termination_by ⌈(phi - kPi) / kTwoPi⌉.toNat
decreasing_by
  have h2 : 0 < kTwoPi := by unfold kTwoPi kPi; linarith [Real.pi_pos]
  have e : (phi - kTwoPi - kPi) / kTwoPi = (phi - kPi) / kTwoPi - 1 := by
    field_simp; ring
  rw [e, Int.ceil_sub_one]
  have hp : 0 < (phi - kPi) / kTwoPi := div_pos (by linarith) h2
  have := Int.ceil_pos.mpr hp
  omega

/-- The two loops in sequence ("bring phi back into the range of plus or minus Pi"). -/
noncomputable def XvToMv.normalize (phi : ℝ) : ℝ :=
  XvToMv.whileAbove (XvToMv.whileBelow phi)

/-- The angle `phi` that `XvToMv` multiplies by `GetR()`: `TMath::ATan2` of the
centre-corrected point, normalised by the two loops. -/
noncomputable def XvToMv.phi (L : DDCylinderMeasLayer ℝ) (xv : TVector3 ℝ) : ℝ :=
  let xxv := xv.sub L.GetXc
  XvToMv.normalize (ATan2 xxv.Y xxv.X)

/-- `DDCylinderMeasLayer::XvToMv`: the `kMdim x 1` matrix with
`mv(0,0) = GetR() * phi` and `mv(1,0) = xxv.Z()`. -/
noncomputable def XvToMv (L : DDCylinderMeasLayer ℝ) (xv : TVector3 ℝ) : TKalMatrix ℝ :=
  let xxv := xv.sub L.GetXc
  let phi := XvToMv.phi L xv
  { nrows := kMdim, ncols := 1,
    elem := fun r c =>
      if r = 0 ∧ c = 0 then L.GetR * phi
      else if r = 1 ∧ c = 0 then xxv.Z
      else 0 }

/-- `DDCylinderMeasLayer::HitToXv`. The hit `vht` is a `kMdim x 1` matrix, read
at `(0,0)` and `(1,0)`. -/
noncomputable def HitToXv (L : DDCylinderMeasLayer ℝ) (vht : TKalMatrix ℝ) : TVector3 ℝ :=
  let phi := vht.elem 0 0 / L.GetR
  let z := vht.elem 1 0
  let x := L.GetR * Real.cos phi + L.GetXc.X
  let y := L.GetR * Real.sin phi + L.GetXc.Y
  ⟨x, y, z⟩

/-! ## Projector matrix -/

/-- Body of the loop of `CalcDhDa` at column `i`: the two assignments to
`H(0, i)` and the assignment to `H(1, i)`, every access checked. -/
def CalcDhDa.body {α : Type} [Add α] [Mul α] [Neg α] [Sub α] [Div α] [Zero α]
    (L : DDCylinderMeasLayer α) (xv yv xxyy : α)
    (dxphiada : TKalMatrix α) (H : TKalMatrix α) (i : Nat) : Option (TKalMatrix α) := do
  let d0 ← dxphiada.get? 0 i
  let d1 ← dxphiada.get? 1 i
  let H1 ← H.set? 0 i (-(yv / xxyy) * d0 + (xv / xxyy) * d1)
  let h0 ← H1.get? 0 i
  let H2 ← H1.set? 0 i (h0 * L.GetR)
  let d2 ← dxphiada.get? 2 i
  H2.set? 1 i d2

/-- The loop `for (Int_t i = ...; i < hdim; i++)`: `CalcDhDa.loop body n i H` runs
the body at the `n` columns `i`, `i + 1`, ..., `i + n - 1`, in this order, and
stops at the first failing access. -/
def CalcDhDa.loop {α : Type} (body : TKalMatrix α → Nat → Option (TKalMatrix α)) :
    Nat → Nat → TKalMatrix α → Option (TKalMatrix α)
  | 0, _, H => some H
  | n + 1, i, H => (body H i).bind (CalcDhDa.loop body n (i + 1))

/-- `DDCylinderMeasLayer::CalcDhDa`. The result is the matrix `H` after the call,
or `none` when an access was out of bounds. The hit `vht` is not used. With
`sdim` a natural number `sdim - 1` is `0` for `sdim = 0` where the source has
`-1`; `hdim = Max(5, sdim - 1)` is `5` in both readings. -/
def CalcDhDa {α : Type} [Add α] [Mul α] [Neg α] [Sub α] [Div α] [Zero α]
    (L : DDCylinderMeasLayer α) (_vht : TKalMatrix α)
    (xxv : TVector3 α) (dxphiada : TKalMatrix α) (H : TKalMatrix α) :
    Option (TKalMatrix α) :=
  let sdim := H.GetNcols
  let hdim := max 5 (sdim - 1)
  let xxvc := xxv.sub L.GetXc
  let xv := xxvc.X
  let yv := xxvc.Y
  let xxyy := xv * xv + yv * yv
  (CalcDhDa.loop (CalcDhDa.body L xv yv xxyy dxphiada) hdim 0 H).bind fun H5 =>
    if sdim = 6 then H5.set? 0 (sdim - 1) 0 else some H5

/-! ## `Double_t` with the special values of IEEE 754 -/

/-- `Double_t` with the special values of IEEE 754: a finite value, read
exactly, an infinity with its sign (`true` for minus infinity), or NaN.
Rounding and overflow are left out, and zero is the positive zero. -/
inductive Double_t (K : Type) where
  | finite (x : K)
  | infinity (negative : Bool)
  | nan

/-- Negation: the sign of an infinity is flipped, NaN stays NaN. -/
def Double_t.neg {K : Type} [LinearOrderedField K] : Double_t K → Double_t K
  | .finite x => .finite (-x)
  | .infinity s => .infinity (!s)
  | .nan => .nan

/-- Addition: the sum of the two opposite infinities is NaN, NaN is absorbing. -/
def Double_t.add {K : Type} [LinearOrderedField K] : Double_t K → Double_t K → Double_t K
  | .finite a, .finite b => .finite (a + b)
  | .finite _, .infinity s => .infinity s
  | .infinity s, .finite _ => .infinity s
  | .infinity s, .infinity t => if s = t then .infinity s else .nan
  | .nan, _ => .nan
  | _, .nan => .nan

/-- Multiplication: zero times an infinity is NaN, otherwise the signs are
multiplied; NaN is absorbing. -/
def Double_t.mul {K : Type} [LinearOrderedField K] : Double_t K → Double_t K → Double_t K
  | .finite a, .finite b => .finite (a * b)
  | .finite a, .infinity s => if a = 0 then .nan else .infinity (xor s (decide (a < 0)))
  | .infinity s, .finite b => if b = 0 then .nan else .infinity (xor s (decide (b < 0)))
  | .infinity s, .infinity t => .infinity (xor s t)
  | .nan, _ => .nan
  | _, .nan => .nan

/-- Division: `0 / 0` and the quotient of two infinities are NaN, a non-zero
finite value over zero is an infinity with the sign of the value, a finite
value over an infinity is zero; NaN is absorbing. -/
def Double_t.div {K : Type} [LinearOrderedField K] : Double_t K → Double_t K → Double_t K
  | .finite a, .finite b =>
      if b = 0 then (if a = 0 then .nan else .infinity (decide (a < 0))) else .finite (a / b)
  | .finite _, .infinity _ => .finite 0
  | .infinity s, .finite b => .infinity (xor s (decide (b < 0)))
  | .infinity _, .infinity _ => .nan
  | .nan, _ => .nan
  | _, .nan => .nan

/-- Sum of two `Double_t`. -/
@[instance] def Double_t.instAdd {K : Type} [LinearOrderedField K] : Add (Double_t K) :=
  ⟨Double_t.add⟩

/-- Product of two `Double_t`. -/
@[instance] def Double_t.instMul {K : Type} [LinearOrderedField K] : Mul (Double_t K) :=
  ⟨Double_t.mul⟩

/-- Negative of a `Double_t`. -/
@[instance] def Double_t.instNeg {K : Type} [LinearOrderedField K] : Neg (Double_t K) :=
  ⟨Double_t.neg⟩

/-- Difference of two `Double_t`: `a - b` is `a + (-b)`, also on the special
values. -/
@[instance] def Double_t.instSub {K : Type} [LinearOrderedField K] : Sub (Double_t K) :=
  ⟨fun a b => Double_t.add a (Double_t.neg b)⟩

/-- Quotient of two `Double_t`. -/
@[instance] def Double_t.instDiv {K : Type} [LinearOrderedField K] : Div (Double_t K) :=
  ⟨Double_t.div⟩

/-- The literal `0.` of the source. -/
@[instance] def Double_t.instZero {K : Type} [LinearOrderedField K] : Zero (Double_t K) :=
  ⟨.finite 0⟩

/-- A vector of exact values as a vector of finite `Double_t`. -/
def TVector3.toDouble_t {K : Type} (v : TVector3 K) : TVector3 (Double_t K) :=
  ⟨.finite v.X, .finite v.Y, .finite v.Z⟩

/-- A matrix of exact values as a matrix of finite `Double_t`. -/
def TKalMatrix.toDouble_t {K : Type} (M : TKalMatrix K) : TKalMatrix (Double_t K) :=
  { nrows := M.nrows, ncols := M.ncols, elem := fun r c => .finite (M.elem r c) }

/-! ## Conversion of an LCIO tracker hit -/

/-- The part of `EVENT::TrackerHitZCylinder` the code reads. -/
structure TrackerHitZCylinder where
  getdRPhi : ℝ
  getdZ : ℝ

/-- The part of `EVENT::TrackerHit` the code reads: the position (three
numbers), the covariance matrix (lower triangle, six numbers) and the outcome
of `dynamic_cast<EVENT::TrackerHitZCylinder*>`, `none` for a null result. -/
structure TrackerHit where
  getPosition : Fin 3 → ℝ
  getCovMatrix : Fin 6 → ℝ
  asZCylinder : Option TrackerHitZCylinder

/-- The hit made by `new DDCylinderHit(*this, x, dx, GetBz(), trkhit)`: the
record of the five constructor arguments, the arrays `x[2]` and `dx[2]` as
pairs. -/
structure DDCylinderHit where
  ms : DDCylinderMeasLayer ℝ
  x : ℝ × ℝ
  dx : ℝ × ℝ
  bfield : ℝ
  trkhit : TrackerHit

/-- The errors `dx[0]`, `dx[1]` of `ConvertLCIOTrkHit`: those of the cylinder hit
when the cast succeeds, square roots of covariance entries otherwise. -/
noncomputable def ConvertLCIOTrkHit.dx (t : TrackerHit) : ℝ × ℝ :=
  match t.asZCylinder with
  | some cylinder_hit => (cylinder_hit.getdRPhi, cylinder_hit.getdZ)
  | none => (Real.sqrt (t.getCovMatrix 0 + t.getCovMatrix 2), Real.sqrt (t.getCovMatrix 5))

/-- `DDCylinderMeasLayer::ConvertLCIOTrkHit`; the log output is left out. -/
noncomputable def ConvertLCIOTrkHit (L : DDCylinderMeasLayer ℝ) (trkhit : Option TrackerHit) :
    Option DDCylinderHit :=
  match trkhit with
  | none => none
  | some t =>
    let hit : TVector3 ℝ := ⟨t.getPosition 0, t.getPosition 1, t.getPosition 2⟩
    let h := XvToMv L hit
    let x : ℝ × ℝ := (h.elem 0 0, h.elem 1 0)
    let dx := ConvertLCIOTrkHit.dx t
    let hit_on_surface := L.IsOnSurface hit
    if hit_on_surface then some ⟨L, x, dx, L.GetBz, t⟩ else none

/-! ## Accesses and divisions of `CalcDhDa` -/

/-- What a statement of `CalcDhDa` does besides arithmetic on numbers at hand:
an element access `dxphiada(r, c)`, an element access `H(r, c)` (a read or a
write), or a division `num / den`. -/
inductive CalcDhDa.Event (α : Type) where
  | readJ (r c : Nat)
  | accessH (r c : Nat)
  | divide (num den : α)

/-- An element access is within the dimensions of its matrix (`J` for
`dxphiada`); nothing is asked of a division. -/
def CalcDhDa.Event.inBounds {α : Type} (J H : TKalMatrix α) : CalcDhDa.Event α → Prop
  | .readJ r c => r < J.nrows ∧ c < J.ncols
  | .accessH r c => r < H.nrows ∧ c < H.ncols
  | .divide _ _ => True

/-- The divisor of a division is not zero; nothing is asked of an access. -/
def CalcDhDa.Event.divisorNonzero {α : Type} [Zero α] : CalcDhDa.Event α → Prop
  | .readJ _ _ => True
  | .accessH _ _ => True
  | .divide _ den => den ≠ 0

/-- The accesses and divisions of the loop body at column `i`, statement by
statement: `H(0, i) = -(yv / xxyy) * dxphiada(0, i) + (xv / xxyy) * dxphiada(1, i)`,
`H(0, i) *= GetR()`, `H(1, i) = dxphiada(2, i)`. -/
def CalcDhDa.bodyEvents {α : Type} (xv yv xxyy : α) (i : Nat) : List (CalcDhDa.Event α) :=
  [.divide yv xxyy, .readJ 0 i, .divide xv xxyy, .readJ 1 i, .accessH 0 i,
   .accessH 0 i,
   .readJ 2 i, .accessH 1 i]

/-- The events of the loop over the `n` columns from `i` on, in the order of
`CalcDhDa.loop`. -/
def CalcDhDa.loopEvents {α : Type} (ev : Nat → List (CalcDhDa.Event α)) :
    Nat → Nat → List (CalcDhDa.Event α)
  | 0, _ => []
  | n + 1, i => ev i ++ CalcDhDa.loopEvents ev n (i + 1)

/-- The accesses and divisions `CalcDhDa` makes when no access stops it: those
of the loop over `hdim` columns and, for `sdim == 6`, the write of
`H(0, sdim - 1)`. -/
def CalcDhDa.events {α : Type} [Field α] (L : DDCylinderMeasLayer α) (xxv : TVector3 α)
    (H : TKalMatrix α) : List (CalcDhDa.Event α) :=
  let sdim := H.GetNcols
  let hdim := max 5 (sdim - 1)
  let xxvc := xxv.sub L.GetXc
  let xv := xxvc.X
  let yv := xxvc.Y
  let xxyy := xv * xv + yv * yv
  CalcDhDa.loopEvents (CalcDhDa.bodyEvents xv yv xxyy) hdim 0
    ++ (if sdim = 6 then [.accessH 0 (sdim - 1)] else [])

/-! ## Auxiliary lemmas -/

/-- The period `kTwoPi` is positive. -/
theorem kTwoPi_pos : 0 < kTwoPi := by
  unfold kTwoPi kPi; linarith [Real.pi_pos]

/-- The first loop does not run on an angle that is at least `-kPi`. -/
theorem whileBelow_of_ge (phi : ℝ) (h : -kPi ≤ phi) : XvToMv.whileBelow phi = phi := by
  rw [XvToMv.whileBelow]; simp [not_lt.mpr h]

/-- The second loop does not run on an angle that is at most `kPi`. -/
theorem whileAbove_of_le (phi : ℝ) (h : phi ≤ kPi) : XvToMv.whileAbove phi = phi := by
  rw [XvToMv.whileAbove]; simp [not_lt.mpr h]

/-- Both loops leave an angle between `-kPi` and `kPi` as it is. -/
theorem normalize_of_mem (phi : ℝ) (h1 : -kPi ≤ phi) (h2 : phi ≤ kPi) :
    XvToMv.normalize phi = phi := by
  unfold XvToMv.normalize
  rw [whileBelow_of_ge phi h1, whileAbove_of_le phi h2]

/-- `TMath::ATan2` is the principal argument, its guard on `x = 0` included. -/
theorem ATan2_eq_arg (y x : ℝ) : ATan2 y x = Complex.arg ⟨x, y⟩ := by
  unfold ATan2 atan2
  by_cases hx : x = 0
  · subst hx
    simp only [ne_eq, not_true_eq_false, if_false]
    by_cases hy : y = 0
    · subst hy
      simp only [if_true]
      exact (Complex.arg_zero).symm
    · simp only [hy, if_false]
      by_cases hp : y > 0
      · simp only [hp, if_true]
        exact (Complex.arg_eq_pi_div_two_iff.mpr ⟨rfl, hp⟩).symm
      · simp only [hp, if_false]
        have hn : y < 0 := lt_of_le_of_ne (not_lt.mp hp) hy
        rw [Complex.arg_eq_neg_pi_div_two_iff.mpr ⟨rfl, hn⟩]; ring
  · simp [hx]

/-- The angle used by `XvToMv` is the principal argument of the centre-corrected
point: the loops leave the value of `TMath::ATan2` as it is. -/
theorem phi_eq_arg (L : DDCylinderMeasLayer ℝ) (xv : TVector3 ℝ) :
    XvToMv.phi L xv = Complex.arg ⟨xv.X - L.GetXc.X, xv.Y - L.GetXc.Y⟩ := by
  unfold XvToMv.phi
  simp only [TVector3.sub]
  rw [ATan2_eq_arg]
  apply normalize_of_mem
  · exact le_of_lt (Complex.neg_pi_lt_arg _)
  · exact Complex.arg_le_pi _

/-- The principal argument of the point at radius `r` and polar angle `t`, for
`t` in the range of the principal argument. -/
theorem arg_polar (r t : ℝ) (hr : 0 < r) (h1 : -Real.pi < t) (h2 : t ≤ Real.pi) :
    Complex.arg ⟨r * Real.cos t, r * Real.sin t⟩ = t := by
  have e : (⟨r * Real.cos t, r * Real.sin t⟩ : ℂ)
      = (r : ℂ) * (Complex.cos t + Complex.sin t * Complex.I) := by
    apply Complex.ext
    · simp [← Complex.ofReal_cos, ← Complex.ofReal_sin]
    · simp [← Complex.ofReal_cos, ← Complex.ofReal_sin]
  rw [e]
  exact Complex.arg_mul_cos_add_sin_mul_I hr ⟨h1, h2⟩

/-- One pass of the loop body on in-bounds column `i`. -/
theorem body_eq {α : Type} [Add α] [Mul α] [Neg α] [Sub α] [Div α] [Zero α]
    (L : DDCylinderMeasLayer α) (xv yv xxyy : α)
    (J H : TKalMatrix α) (i : Nat) (hJr : 3 ≤ J.nrows) (hJc : i < J.ncols)
    (hHr : 2 ≤ H.nrows) (hHc : i < H.ncols) :
    CalcDhDa.body L xv yv xxyy J H i = some
      { H with elem := fun a b =>
          if b = i then
            (if a = 0 then (-(yv / xxyy) * J.elem 0 i + (xv / xxyy) * J.elem 1 i) * L.GetR
             else if a = 1 then J.elem 2 i else H.elem a b)
          else H.elem a b } := by
  have h0 : 0 < J.nrows := by omega
  have h1 : 1 < J.nrows := by omega
  have h2 : 2 < J.nrows := by omega
  have h3 : 0 < H.nrows := by omega
  have h4 : 1 < H.nrows := by omega
  simp only [CalcDhDa.body, TKalMatrix.get?, TKalMatrix.set?, h0, h1, h2, h3, h4, hJc, hHc,
    and_self, if_true, Option.bind_eq_bind, Option.some_bind, Option.some.injEq]
  congr 1
  funext a b
  by_cases hb : b = i
  · by_cases ha0 : a = 0
    · simp [hb, ha0]
    · by_cases ha1 : a = 1
      · simp [hb, ha1]
      · simp [hb, ha0, ha1]
  · simp [hb]

/-- The loop over `n` in-bounds columns from `i` on: both rows of these columns
are written, every other entry of `H` is kept. -/
theorem loop_eq {α : Type} [Add α] [Mul α] [Neg α] [Sub α] [Div α] [Zero α]
    (L : DDCylinderMeasLayer α) (xv yv xxyy : α)
    (J : TKalMatrix α) (hJr : 3 ≤ J.nrows) (n : Nat) :
    ∀ (i : Nat) (H : TKalMatrix α), i + n ≤ J.ncols → 2 ≤ H.nrows → i + n ≤ H.ncols →
    CalcDhDa.loop (CalcDhDa.body L xv yv xxyy J) n i H = some
      { H with elem := fun a b =>
          if i ≤ b ∧ b < i + n then
            (if a = 0 then (-(yv / xxyy) * J.elem 0 b + (xv / xxyy) * J.elem 1 b) * L.GetR
             else if a = 1 then J.elem 2 b else H.elem a b)
          else H.elem a b } := by
  induction n with
  | zero =>
    intro i H _ _ _
    obtain ⟨nr, nc, e⟩ := H
    simp only [CalcDhDa.loop, Option.some.injEq, TKalMatrix.mk.injEq, true_and]
    funext a b
    have hn : ¬ (i ≤ b ∧ b < i + 0) := by omega
    rw [if_neg hn]
  | succ n ih =>
    intro i H hJc hHr hHc
    rw [CalcDhDa.loop, body_eq L xv yv xxyy J H i hJr (by omega) hHr (by omega)]
    simp only [Option.some_bind]
    rw [ih (i + 1) _ (by omega) (by exact hHr) (by show i + 1 + n ≤ H.ncols; omega)]
    simp only [Option.some.injEq]
    congr 1
    funext a b
    by_cases hb : b = i
    · subst hb
      have e1 : ¬ (b + 1 ≤ b ∧ b < b + 1 + n) := by omega
      have e2 : b ≤ b ∧ b < b + (n + 1) := by omega
      simp [e1, e2]
    · by_cases hr : i + 1 ≤ b ∧ b < i + 1 + n
      · have e2 : i ≤ b ∧ b < i + (n + 1) := by omega
        simp [hr, e2, hb]
      · have e2 : ¬ (i ≤ b ∧ b < i + (n + 1)) := by omega
        simp [hr, e2, hb]

/-- The matrix `CalcDhDa` returns on well-dimensioned arguments. -/
theorem CalcDhDa_eq {α : Type} [Add α] [Mul α] [Neg α] [Sub α] [Div α] [Zero α]
    (L : DDCylinderMeasLayer α) (vht : TKalMatrix α)
    (xxv : TVector3 α) (J H : TKalMatrix α) (hJr : 3 ≤ J.nrows) (hHr : 2 ≤ H.nrows)
    (hN : 5 ≤ H.ncols) (hJc : H.ncols ≤ J.ncols) :
    CalcDhDa L vht xxv J H = some
      { H with elem := fun a b =>
          if H.ncols = 6 ∧ a = 0 ∧ b = 5 then 0
          else if b < max 5 (H.ncols - 1) then
            (if a = 0 then
              (-((xxv.Y - L.GetXc.Y)
                    / ((xxv.X - L.GetXc.X) * (xxv.X - L.GetXc.X)
                        + (xxv.Y - L.GetXc.Y) * (xxv.Y - L.GetXc.Y))) * J.elem 0 b
                + ((xxv.X - L.GetXc.X)
                    / ((xxv.X - L.GetXc.X) * (xxv.X - L.GetXc.X)
                        + (xxv.Y - L.GetXc.Y) * (xxv.Y - L.GetXc.Y))) * J.elem 1 b) * L.GetR
             else if a = 1 then J.elem 2 b else H.elem a b)
          else H.elem a b } := by
  unfold CalcDhDa
  simp only [TKalMatrix.GetNcols, TVector3.sub]
  rw [loop_eq L _ _ _ J hJr (max 5 (H.ncols - 1)) 0 H (by omega) hHr (by omega)]
  simp only [Option.some_bind]
  by_cases h6 : H.ncols = 6
  · have h0 : 0 < H.nrows := by omega
    simp only [h6, if_true, TKalMatrix.set?, h0, true_and, Nat.lt_irrefl, Nat.reduceSub,
      Nat.reduceLT, Option.some.injEq, TKalMatrix.mk.injEq]
    funext a b
    by_cases hab : a = 0 ∧ b = 5
    · simp [hab]
    · simp [hab]
  · simp only [h6, if_false, false_and, Option.some.injEq, TKalMatrix.mk.injEq, true_and]
    funext a b
    simp

/-- The body stops when one of its accesses is out of bounds. -/
theorem body_none {α : Type} [Add α] [Mul α] [Neg α] [Sub α] [Div α] [Zero α]
    (L : DDCylinderMeasLayer α) (xv yv xxyy : α)
    (J H : TKalMatrix α) (i : Nat)
    (h : ¬ (3 ≤ J.nrows ∧ i < J.ncols ∧ 2 ≤ H.nrows ∧ i < H.ncols)) :
    CalcDhDa.body L xv yv xxyy J H i = none := by
  by_cases hJc : i < J.ncols <;> by_cases hHc : i < H.ncols <;>
    by_cases hJ0 : 0 < J.nrows <;> by_cases hJ1 : 1 < J.nrows <;>
    by_cases hJ2 : 2 < J.nrows <;> by_cases hH0 : 0 < H.nrows <;>
    by_cases hH1 : 1 < H.nrows <;>
    first
      | (exfalso; omega)
      | simp [CalcDhDa.body, TKalMatrix.get?, TKalMatrix.set?, hJc, hHc, hJ0, hJ1, hJ2, hH0, hH1]

/-- The accesses of the body at column `i` are within bounds exactly when `J`
has three rows, `H` has two rows and both have the column `i`. -/
theorem bodyEvents_inBounds_iff {α : Type} (xv yv xxyy : α) (J H : TKalMatrix α) (i : Nat) :
    (∀ e ∈ CalcDhDa.bodyEvents xv yv xxyy i, e.inBounds J H)
      ↔ (3 ≤ J.nrows ∧ i < J.ncols ∧ 2 ≤ H.nrows ∧ i < H.ncols) := by
  simp only [CalcDhDa.bodyEvents, List.mem_cons, List.mem_singleton, forall_eq_or_imp, forall_eq,
    CalcDhDa.Event.inBounds, List.not_mem_nil, false_implies, implies_true, and_true, true_and]
  omega

/-- The accesses being in bounds depends on `H` through its dimensions only. -/
theorem inBounds_congr {α : Type} (J H H' : TKalMatrix α) (hr : H'.nrows = H.nrows)
    (hc : H'.ncols = H.ncols) (e : CalcDhDa.Event α) :
    e.inBounds J H' ↔ e.inBounds J H := by
  cases e <;> simp [CalcDhDa.Event.inBounds, hr, hc]

/-- The loop returns exactly when all its accesses are within bounds, and keeps
the dimensions of `H`. -/
theorem loop_some_iff {α : Type} [Field α] (L : DDCylinderMeasLayer α) (xv yv xxyy : α)
    (J : TKalMatrix α) (n : Nat) :
    ∀ (i : Nat) (H : TKalMatrix α),
      ((∃ H', CalcDhDa.loop (CalcDhDa.body L xv yv xxyy J) n i H = some H')
        ↔ ∀ e ∈ CalcDhDa.loopEvents (CalcDhDa.bodyEvents xv yv xxyy) n i, e.inBounds J H)
      ∧ (∀ H', CalcDhDa.loop (CalcDhDa.body L xv yv xxyy J) n i H = some H' →
          H'.nrows = H.nrows ∧ H'.ncols = H.ncols) := by
  induction n with
  | zero =>
    intro i H
    simp only [CalcDhDa.loop, CalcDhDa.loopEvents, Option.some.injEq, exists_eq',
      List.not_mem_nil, false_implies, implies_true, true_and]
    intro H' h
    subst h
    exact ⟨rfl, rfl⟩
  | succ n ih =>
    intro i H
    simp only [CalcDhDa.loop, CalcDhDa.loopEvents, List.mem_append]
    by_cases hb : 3 ≤ J.nrows ∧ i < J.ncols ∧ 2 ≤ H.nrows ∧ i < H.ncols
    · have hev := (bodyEvents_inBounds_iff xv yv xxyy J H i).mpr hb
      rw [body_eq L xv yv xxyy J H i hb.1 hb.2.1 hb.2.2.1 hb.2.2.2]
      simp only [Option.some_bind]
      obtain ⟨ih1, ih2⟩ := ih (i + 1)
        { H with elem := fun a b =>
            if b = i then
              (if a = 0 then (-(yv / xxyy) * J.elem 0 i + (xv / xxyy) * J.elem 1 i) * L.GetR
               else if a = 1 then J.elem 2 i else H.elem a b)
            else H.elem a b }
      refine ⟨?_, ih2⟩
      rw [ih1]
      constructor
      · intro h e he
        rcases he with he | he
        · exact hev e he
        · exact (inBounds_congr J H _ rfl rfl e).mp (h e he)
      · intro h e he
        exact (inBounds_congr J H _ rfl rfl e).mpr (h e (Or.inr he))
    · rw [body_none L xv yv xxyy J H i hb]
      simp only [Option.none_bind]
      refine ⟨⟨?_, ?_⟩, ?_⟩
      · rintro ⟨H', h⟩
        exact absurd h (by simp)
      · intro h
        exact absurd
          ((bodyEvents_inBounds_iff xv yv xxyy J H i).mp (fun e he => h e (Or.inl he))) hb
      · intro H' h
        exact absurd h (by simp)

/-- `CalcDhDa` returns exactly when all its accesses are within bounds. -/
theorem CalcDhDa_some_iff {α : Type} [Field α] (L : DDCylinderMeasLayer α)
    (vht : TKalMatrix α) (xxv : TVector3 α) (J H : TKalMatrix α) :
    (∃ H', CalcDhDa L vht xxv J H = some H')
      ↔ ∀ e ∈ CalcDhDa.events L xxv H, e.inBounds J H := by
  unfold CalcDhDa CalcDhDa.events
  simp only [TKalMatrix.GetNcols, List.mem_append]
  obtain ⟨l1, l2⟩ := loop_some_iff L (xxv.sub L.GetXc).X (xxv.sub L.GetXc).Y
    ((xxv.sub L.GetXc).X * (xxv.sub L.GetXc).X + (xxv.sub L.GetXc).Y * (xxv.sub L.GetXc).Y)
    J (max 5 (H.ncols - 1)) 0 H
  cases hl : CalcDhDa.loop (CalcDhDa.body L (xxv.sub L.GetXc).X (xxv.sub L.GetXc).Y
      ((xxv.sub L.GetXc).X * (xxv.sub L.GetXc).X + (xxv.sub L.GetXc).Y * (xxv.sub L.GetXc).Y) J)
      (max 5 (H.ncols - 1)) 0 H with
  | none =>
    rw [hl] at l1
    simp only [Option.none_bind]
    constructor
    · rintro ⟨H', h⟩
      exact absurd h (by simp)
    · intro h
      obtain ⟨H', h'⟩ := l1.mpr (fun e he => h e (Or.inl he))
      exact absurd h' (by simp)
  | some H5 =>
    rw [hl] at l1
    obtain ⟨d1, d2⟩ := l2 H5 hl
    have hloop := l1.mp ⟨H5, rfl⟩
    simp only [Option.some_bind]
    by_cases h6 : H.ncols = 6
    · simp only [h6, if_true, List.mem_singleton, TKalMatrix.set?, d1, d2]
      by_cases hr : 0 < H.nrows
      · simp only [hr, true_and, Nat.reduceSub, Nat.reduceLT, if_true, Option.some.injEq,
          exists_eq', true_iff]
        intro e he
        simp only [h6, Nat.reduceSub] at hloop
        rcases he with he | he
        · exact hloop e he
        · subst he
          simp [CalcDhDa.Event.inBounds, hr, h6]
      · simp only [hr, false_and, if_false, false_iff, not_forall]
        constructor
        · rintro ⟨H', h⟩
          exact absurd h (by simp)
        · intro h
          have := h (.accessH 0 (6 - 1)) (Or.inr rfl)
          simp only [CalcDhDa.Event.inBounds] at this
          exact absurd this.1 hr
    · simp only [h6, if_false, List.not_mem_nil, or_false, Option.some.injEq, exists_eq',
        true_iff]
      exact hloop

/-- Every division of the loop has the divisor `xxyy`. -/
theorem loopEvents_divisor {α : Type} (xv yv xxyy : α) (n : Nat) :
    ∀ (i : Nat), ∀ e ∈ CalcDhDa.loopEvents (CalcDhDa.bodyEvents xv yv xxyy) n i,
      ∀ a d, e = CalcDhDa.Event.divide a d → d = xxyy := by
  induction n with
  | zero =>
    intro i e he
    simp [CalcDhDa.loopEvents] at he
  | succ n ih =>
    intro i e he a d hd
    simp only [CalcDhDa.loopEvents, List.mem_append] at he
    rcases he with he | he
    · subst hd
      simp only [CalcDhDa.bodyEvents, List.mem_cons, List.mem_singleton,
        CalcDhDa.Event.divide.injEq, List.not_mem_nil, or_false, false_or,
        reduceCtorEq] at he
      rcases he with he | he
      · exact he.2
      · exact he.2
    · exact ih (i + 1) e he a d hd

/-- Every division of `CalcDhDa` has the divisor `xxyy = xv * xv + yv * yv`. -/
theorem events_divisor {α : Type} [Field α] (L : DDCylinderMeasLayer α) (xxv : TVector3 α)
    (H : TKalMatrix α) :
    ∀ e ∈ CalcDhDa.events L xxv H, ∀ a d, e = CalcDhDa.Event.divide a d →
      d = (xxv.X - L.GetXc.X) * (xxv.X - L.GetXc.X)
            + (xxv.Y - L.GetXc.Y) * (xxv.Y - L.GetXc.Y) := by
  intro e he a d hd
  simp only [CalcDhDa.events, List.mem_append, TVector3.sub] at he
  rcases he with he | he
  · exact loopEvents_divisor _ _ _ _ 0 e he a d hd
  · subst hd
    split at he <;> simp at he

/-- The first loop adds a natural multiple of the period, ends at or above `-kPi`, stays below
`kPi` when it ran, and does nothing otherwise. -/
theorem whileBelow_spec (phi : ℝ) :
    (∃ k : ℕ, XvToMv.whileBelow phi = phi + k * kTwoPi)
    ∧ -kPi ≤ XvToMv.whileBelow phi
    ∧ (phi < -kPi → XvToMv.whileBelow phi < kPi) := by
  induction phi using XvToMv.whileBelow.induct with
  | case1 phi h ih =>
    obtain ⟨⟨k, hk⟩, h1, h2⟩ := ih
    rw [XvToMv.whileBelow, dif_pos h]
    refine ⟨⟨k + 1, ?_⟩, h1, ?_⟩
    · rw [hk]; push_cast; ring
    · intro _
      by_cases hlt : phi + kTwoPi < -kPi
      · exact h2 hlt
      · rw [whileBelow_of_ge _ (not_lt.mp hlt)]
        unfold kTwoPi at *
        linarith
  | case2 phi h =>
    rw [XvToMv.whileBelow, dif_neg h]
    exact ⟨⟨0, by simp⟩, not_lt.mp h, fun h' => absurd h' h⟩

/-- The second loop subtracts a natural multiple of the period, ends at or below `kPi`, stays
above `-kPi` when it ran, and does nothing otherwise. -/
theorem whileAbove_spec (phi : ℝ) :
    (∃ k : ℕ, XvToMv.whileAbove phi = phi - k * kTwoPi)
    ∧ XvToMv.whileAbove phi ≤ kPi
    ∧ (phi > kPi → -kPi < XvToMv.whileAbove phi) := by
  induction phi using XvToMv.whileAbove.induct with
  | case1 phi h ih =>
    obtain ⟨⟨k, hk⟩, h1, h2⟩ := ih
    rw [XvToMv.whileAbove, dif_pos h]
    refine ⟨⟨k + 1, ?_⟩, h1, ?_⟩
    · rw [hk]; push_cast; ring
    · intro _
      by_cases hgt : phi - kTwoPi > kPi
      · exact h2 hgt
      · rw [whileAbove_of_le _ (not_lt.mp hgt)]
        unfold kTwoPi at *
        linarith
  | case2 phi h =>
    rw [XvToMv.whileAbove, dif_neg h]
    exact ⟨⟨0, by simp⟩, not_lt.mp h, fun h' => absurd h' h⟩

/-- Chain rule for the first local coordinate: along a path `(X, Y, Z)` whose
planar part has the derivative `(j0, j1)` at `t` and is, after the centre
correction, off the half line `y' = 0`, `x' <= 0`, the coordinate
`mv(0,0)` has the derivative `R * (-(y'/rho^2) * j0 + (x'/rho^2) * j1)`. -/
theorem m0_hasDerivAt (L : DDCylinderMeasLayer ℝ) (X Y Z : ℝ → ℝ) (t j0 j1 : ℝ)
    (hX : HasDerivAt X j0 t) (hY : HasDerivAt Y j1 t)
    (hslit : ¬ (Y t - L.GetXc.Y = 0 ∧ X t - L.GetXc.X ≤ 0)) :
    HasDerivAt (fun s => (XvToMv L ⟨X s, Y s, Z s⟩).elem 0 0)
      (L.GetR *
        (-((Y t - L.GetXc.Y) / ((X t - L.GetXc.X) ^ 2 + (Y t - L.GetXc.Y) ^ 2)) * j0
          + ((X t - L.GetXc.X) / ((X t - L.GetXc.X) ^ 2 + (Y t - L.GetXc.Y) ^ 2)) * j1)) t := by
  have hf : HasDerivAt
      (fun s => (((X s - L.GetXc.X : ℝ) : ℂ) + ((Y s - L.GetXc.Y : ℝ) : ℂ) * Complex.I))
      ((j0 : ℂ) + (j1 : ℂ) * Complex.I) t :=
    ((hX.sub_const L.GetXc.X).ofReal_comp).add
      (((hY.sub_const L.GetXc.Y).ofReal_comp).mul_const Complex.I)
  have hmem : (((X t - L.GetXc.X : ℝ) : ℂ) + ((Y t - L.GetXc.Y : ℝ) : ℂ) * Complex.I)
      ∈ Complex.slitPlane := by
    rw [Complex.mem_slitPlane_iff]
    simp only [Complex.add_re, Complex.ofReal_re, Complex.mul_re, Complex.I_re, mul_zero,
      Complex.ofReal_im, Complex.I_im, mul_one, sub_self, add_zero, Complex.add_im,
      Complex.mul_im, zero_add]
    by_cases hy : Y t - L.GetXc.Y = 0
    · left
      exact not_le.mp (fun h => hslit ⟨hy, h⟩)
    · right
      exact hy
  have hlog := HasDerivAt.clog_real hf hmem
  have him := (Complex.imCLM.hasFDerivAt.comp_hasDerivAt t hlog).const_mul L.GetR
  have efun : (fun s => (XvToMv L ⟨X s, Y s, Z s⟩).elem 0 0)
      = fun s => L.GetR * (Complex.imCLM ∘ fun s =>
          Complex.log (((X s - L.GetXc.X : ℝ) : ℂ) + ((Y s - L.GetXc.Y : ℝ) : ℂ) * Complex.I)) s := by
    funext s
    simp only [XvToMv, phi_eq_arg, and_self, if_true, Function.comp_apply, Complex.imCLM_apply,
      Complex.log_im, Complex.mk_eq_add_mul_I]
  rw [efun]
  convert him using 1
  simp only [Complex.imCLM_apply, Complex.div_im, Complex.add_re, Complex.ofReal_re,
    Complex.mul_re, Complex.I_re, mul_zero, Complex.ofReal_im, Complex.I_im, mul_one, sub_self,
    add_zero, Complex.add_im, Complex.mul_im, zero_add, Complex.normSq_apply]
  ring

/-- The difference of two finite values is finite and exact. -/
theorem Double_t.finite_sub {K : Type} [LinearOrderedField K] (a b : K) :
    (Double_t.finite a - Double_t.finite b : Double_t K) = Double_t.finite (a - b) := by
  show Double_t.add (Double_t.finite a) (Double_t.neg (Double_t.finite b)) = _
  simp only [Double_t.neg, Double_t.add, sub_eq_add_neg]

/-- The sum of two finite values is finite and exact. -/
theorem Double_t.finite_add {K : Type} [LinearOrderedField K] (a b : K) :
    (Double_t.finite a + Double_t.finite b : Double_t K) = Double_t.finite (a + b) := rfl

/-- The product of two finite values is finite and exact. -/
theorem Double_t.finite_mul {K : Type} [LinearOrderedField K] (a b : K) :
    (Double_t.finite a * Double_t.finite b : Double_t K) = Double_t.finite (a * b) := rfl

/-- The negative of a finite value is finite and exact. -/
theorem Double_t.finite_neg {K : Type} [LinearOrderedField K] (a : K) :
    (-Double_t.finite a : Double_t K) = Double_t.finite (-a) := rfl

/-- The quotient of two finite values with a non-zero divisor is finite and
exact. -/
theorem Double_t.finite_div {K : Type} [LinearOrderedField K] (a b : K) (hb : b ≠ 0) :
    (Double_t.finite a / Double_t.finite b : Double_t K) = Double_t.finite (a / b) := by
  show Double_t.div (Double_t.finite a) (Double_t.finite b) = _
  simp only [Double_t.div, hb, if_false]

/-- `0 / 0` is NaN. -/
theorem Double_t.zero_div_zero {K : Type} [LinearOrderedField K] :
    (Double_t.finite 0 / Double_t.finite 0 : Double_t K) = Double_t.nan := by
  show Double_t.div (Double_t.finite 0) (Double_t.finite 0) = _
  simp only [Double_t.div, if_true]

/-- The negative of NaN is NaN. -/
theorem Double_t.neg_nan {K : Type} [LinearOrderedField K] :
    (-Double_t.nan : Double_t K) = Double_t.nan := rfl

/-- NaN times any value is NaN. -/
theorem Double_t.nan_mul {K : Type} [LinearOrderedField K] (a : Double_t K) :
    Double_t.nan * a = Double_t.nan := by
  cases a <;> rfl

/-- NaN plus any value is NaN. -/
theorem Double_t.nan_add {K : Type} [LinearOrderedField K] (a : Double_t K) :
    Double_t.nan + a = Double_t.nan := by
  cases a <;> rfl

/-- Away from a zero divisor the loop body on finite `Double_t` values is the
loop body on the exact values. -/
theorem body_toDouble_t {K : Type} [LinearOrderedField K] (L : DDCylinderMeasLayer K)
    (f : TVector3 (Double_t K) → Bool) (xv yv xxyy : K) (hne : xxyy ≠ 0)
    (J H : TKalMatrix K) (i : Nat) :
    CalcDhDa.body
        (⟨.finite L.GetR, L.GetXc.toDouble_t, .finite L.GetBz, f⟩ :
          DDCylinderMeasLayer (Double_t K))
        (.finite xv) (.finite yv) (.finite xxyy) J.toDouble_t H.toDouble_t i
      = (CalcDhDa.body L xv yv xxyy J H i).map TKalMatrix.toDouble_t := by
  by_cases hb : 3 ≤ J.nrows ∧ i < J.ncols ∧ 2 ≤ H.nrows ∧ i < H.ncols
  · rw [body_eq L xv yv xxyy J H i hb.1 hb.2.1 hb.2.2.1 hb.2.2.2,
      body_eq _ _ _ _ J.toDouble_t H.toDouble_t i hb.1 hb.2.1 hb.2.2.1 hb.2.2.2]
    simp only [Option.map_some', Option.some.injEq, TKalMatrix.toDouble_t,
      TKalMatrix.mk.injEq, true_and]
    funext a b
    by_cases hbi : b = i
    · by_cases ha0 : a = 0
      · simp only [hbi, ha0, if_true, Double_t.finite_div _ _ hne, Double_t.finite_neg,
          Double_t.finite_mul, Double_t.finite_add]
      · by_cases ha1 : a = 1
        · simp only [hbi, ha1, if_true, one_ne_zero, if_false]
        · simp only [hbi, ha0, ha1, if_true, if_false]
    · simp only [hbi, if_false]
  · rw [body_none L xv yv xxyy J H i hb,
      body_none _ _ _ _ J.toDouble_t H.toDouble_t i hb]
    rfl

/-- Away from a zero divisor the loop on finite `Double_t` values is the loop on
the exact values. -/
theorem loop_toDouble_t {K : Type} [LinearOrderedField K] (L : DDCylinderMeasLayer K)
    (f : TVector3 (Double_t K) → Bool) (xv yv xxyy : K) (hne : xxyy ≠ 0)
    (J : TKalMatrix K) (n : Nat) :
    ∀ (i : Nat) (H : TKalMatrix K),
      CalcDhDa.loop
          (CalcDhDa.body
            (⟨.finite L.GetR, L.GetXc.toDouble_t, .finite L.GetBz, f⟩ :
              DDCylinderMeasLayer (Double_t K))
            (.finite xv) (.finite yv) (.finite xxyy) J.toDouble_t) n i H.toDouble_t
        = (CalcDhDa.loop (CalcDhDa.body L xv yv xxyy J) n i H).map TKalMatrix.toDouble_t := by
  induction n with
  | zero => intro i H; rfl
  | succ n ih =>
    intro i H
    simp only [CalcDhDa.loop]
    rw [body_toDouble_t L f xv yv xxyy hne J H i]
    cases CalcDhDa.body L xv yv xxyy J H i with
    | none => rfl
    | some H2 =>
      simp only [Option.map_some', Option.some_bind]
      exact ih (i + 1) H2

/-- Off the axis `CalcDhDa` on finite `Double_t` values is `CalcDhDa` on the
exact values: the special values arise on the axis only. -/
theorem CalcDhDa_toDouble_t {K : Type} [LinearOrderedField K] (L : DDCylinderMeasLayer K)
    (f : TVector3 (Double_t K) → Bool) (vht : TKalMatrix K) (xxv : TVector3 K)
    (J H : TKalMatrix K)
    (hne : (xxv.X - L.GetXc.X) * (xxv.X - L.GetXc.X)
        + (xxv.Y - L.GetXc.Y) * (xxv.Y - L.GetXc.Y) ≠ 0) :
    CalcDhDa
        (⟨.finite L.GetR, L.GetXc.toDouble_t, .finite L.GetBz, f⟩ :
          DDCylinderMeasLayer (Double_t K))
        vht.toDouble_t xxv.toDouble_t J.toDouble_t H.toDouble_t
      = (CalcDhDa L vht xxv J H).map TKalMatrix.toDouble_t := by
  unfold CalcDhDa
  simp only [TKalMatrix.GetNcols, TVector3.sub, TVector3.toDouble_t, Double_t.finite_sub,
    Double_t.finite_mul, Double_t.finite_add]
  have hl := loop_toDouble_t L f (xxv.X - L.GetXc.X) (xxv.Y - L.GetXc.Y) _ hne J
    (max 5 (H.ncols - 1)) 0 H
  simp only [TVector3.toDouble_t] at hl
  have hc : H.toDouble_t.ncols = H.ncols := rfl
  rw [hc, hl]
  cases CalcDhDa.loop (CalcDhDa.body L (xxv.X - L.GetXc.X) (xxv.Y - L.GetXc.Y)
      ((xxv.X - L.GetXc.X) * (xxv.X - L.GetXc.X) + (xxv.Y - L.GetXc.Y) * (xxv.Y - L.GetXc.Y))
      J) (max 5 (H.ncols - 1)) 0 H with
  | none => rfl
  | some H5 =>
    simp only [Option.map_some', Option.some_bind]
    by_cases h6 : H.ncols = 6
    · simp only [h6, if_true, TKalMatrix.set?, TKalMatrix.toDouble_t]
      by_cases hr : 0 < H5.nrows ∧ 6 - 1 < H5.ncols
      · simp only [hr, and_self, if_true, Option.map_some', Option.some.injEq,
          TKalMatrix.toDouble_t, TKalMatrix.mk.injEq, true_and]
        funext a b
        by_cases hab : a = 0 ∧ b = 6 - 1
        · simp only [hab, and_self, if_true]; rfl
        · simp only [hab, if_false]
      · simp only [hr, if_false, Option.map_none']
    · simp only [h6, if_false, Option.map_some']

/-! ## The claims -/

/-- C1 (round trip). For a layer with positive radius and a centre whose
z-component is zero, and a point `p` exactly on the cylinder,
`HitToXv (XvToMv p)` is `p`, in all three coordinates. -/
theorem C1_HitToXv_XvToMv (L : DDCylinderMeasLayer ℝ) (p : TVector3 ℝ)
    (hR : 0 < L.GetR) (hz : L.GetXc.Z = 0)
    (hp : (p.X - L.GetXc.X) ^ 2 + (p.Y - L.GetXc.Y) ^ 2 = L.GetR ^ 2) :
    HitToXv L (XvToMv L p) = p := by
  have hR0 : L.GetR ≠ 0 := ne_of_gt hR
  have habs : Complex.abs ⟨p.X - L.GetXc.X, p.Y - L.GetXc.Y⟩ = L.GetR := by
    rw [Complex.abs_apply, Complex.normSq_mk]
    rw [show (p.X - L.GetXc.X) * (p.X - L.GetXc.X) + (p.Y - L.GetXc.Y) * (p.Y - L.GetXc.Y)
        = L.GetR ^ 2 by rw [← hp]; ring]
    exact Real.sqrt_sq (le_of_lt hR)
  have hne : (⟨p.X - L.GetXc.X, p.Y - L.GetXc.Y⟩ : ℂ) ≠ 0 := by
    intro h0
    rw [h0, map_zero] at habs
    exact hR0 habs.symm
  have hcos := Complex.cos_arg hne
  have hsin := Complex.sin_arg (⟨p.X - L.GetXc.X, p.Y - L.GetXc.Y⟩ : ℂ)
  rw [habs] at hcos hsin
  simp only at hcos hsin
  obtain ⟨px, py, pz⟩ := p
  simp only [HitToXv, XvToMv, phi_eq_arg, TVector3.sub, and_self, if_true,
    one_ne_zero, false_and, if_false, true_and, mul_div_cancel_left₀ _ hR0] at *
  rw [hcos, hsin, hz]
  congr 1
  · field_simp
  · field_simp
  · ring

/-- Witness of C1: the layer of radius 50 about the origin and the point
`(0, 50, 10)` on it. -/
theorem C1_HitToXv_XvToMv_witness :
    HitToXv ⟨50, ⟨0, 0, 0⟩, 3, fun _ => true⟩ (XvToMv ⟨50, ⟨0, 0, 0⟩, 3, fun _ => true⟩ ⟨0, 50, 10⟩)
      = ⟨0, 50, 10⟩ :=
  C1_HitToXv_XvToMv ⟨50, ⟨0, 0, 0⟩, 3, fun _ => true⟩ ⟨0, 50, 10⟩
    (by norm_num) rfl (by norm_num)

/-- C3 (axis point). For every layer and every `z`, at the point
`(xc, yc, z)` on the axis `XvToMv` uses the angle `0`, and the first local
coordinate is exactly `0`. -/
theorem C3_axis_point (L : DDCylinderMeasLayer ℝ) (z : ℝ) :
    ATan2 (L.GetXc.Y - L.GetXc.Y) (L.GetXc.X - L.GetXc.X) = 0
    ∧ XvToMv.phi L ⟨L.GetXc.X, L.GetXc.Y, z⟩ = 0
    ∧ (XvToMv L ⟨L.GetXc.X, L.GetXc.Y, z⟩).elem 0 0 = 0
    ∧ (XvToMv L ⟨L.GetXc.X, L.GetXc.Y, z⟩).elem 1 0 = z - L.GetXc.Z := by
  have h : XvToMv.phi L ⟨L.GetXc.X, L.GetXc.Y, z⟩ = 0 := by
    rw [phi_eq_arg]
    simp only [sub_self]
    exact Complex.arg_zero
  refine ⟨?_, h, ?_, ?_⟩
  · simp [ATan2]
  · simp [XvToMv, h]
  · simp [XvToMv, TVector3.sub]

/-- C4 (output of `CalcDhDa`). For `N = 5` or `N = 6`, a `2 x N` matrix `H`, a
`3 x N` matrix `J` and a point off the axis, the call returns a matrix with
`H[0][i] = R * (-(y'/rho^2) * J[0][i] + (x'/rho^2) * J[1][i])` and
`H[1][i] = J[2][i]` in the columns `i < 5`, and with `H[0][5] = 0` when
`N = 6`. -/
theorem C4_CalcDhDa_output (L : DDCylinderMeasLayer ℝ) (vht : TKalMatrix ℝ)
    (xxv : TVector3 ℝ) (J H : TKalMatrix ℝ) (N : Nat) (hN : N = 5 ∨ N = 6)
    (hJ : J.nrows = 3 ∧ J.ncols = N) (hH : H.nrows = 2 ∧ H.ncols = N)
    (hrho : 0 < (xxv.X - L.GetXc.X) ^ 2 + (xxv.Y - L.GetXc.Y) ^ 2) :
    ∃ H' : TKalMatrix ℝ, CalcDhDa L vht xxv J H = some H'
      ∧ (∀ i, i < 5 →
          H'.elem 0 i = L.GetR *
            (-((xxv.Y - L.GetXc.Y) / ((xxv.X - L.GetXc.X) ^ 2 + (xxv.Y - L.GetXc.Y) ^ 2))
                * J.elem 0 i
              + ((xxv.X - L.GetXc.X) / ((xxv.X - L.GetXc.X) ^ 2 + (xxv.Y - L.GetXc.Y) ^ 2))
                * J.elem 1 i)
          ∧ H'.elem 1 i = J.elem 2 i)
      ∧ (N = 6 → H'.elem 0 5 = 0) := by
  obtain ⟨hJr, hJc⟩ := hJ
  obtain ⟨hHr, hHc⟩ := hH
  have _ := hrho
  refine ⟨_, CalcDhDa_eq L vht xxv J H (by omega) (by omega) (by omega) (by omega), ?_, ?_⟩
  · intro i hi
    have hlt : i < max 5 (H.ncols - 1) := by omega
    have hi5 : i ≠ 5 := by omega
    constructor
    · simp only [hi5, and_false, hlt, if_true, if_false, sq]
      ring
    · simp only [hi5, and_false, hlt, if_true, if_false, one_ne_zero]
  · intro h6
    have e : H.ncols = 6 := by omega
    simp [e]

/-- Witness of C4: six parameters, the point `(3, 4, 0)` and a layer of radius
50 about the origin. -/
theorem C4_CalcDhDa_output_witness :
    ∃ H' : TKalMatrix ℝ,
      CalcDhDa (⟨50, ⟨0, 0, 0⟩, 3, fun _ => true⟩ : DDCylinderMeasLayer ℝ) ⟨2, 1, fun _ _ => 0⟩ ⟨3, 4, 0⟩
          ⟨3, 6, fun r c => (r : ℝ) + c⟩ ⟨2, 6, fun _ _ => 7⟩ = some H'
      ∧ (∀ i, i < 5 →
          H'.elem 0 i = 50 *
            (-(((4 : ℝ) - 0) / (((3 : ℝ) - 0) ^ 2 + ((4 : ℝ) - 0) ^ 2)) * (((0 : ℕ) : ℝ) + i)
              + (((3 : ℝ) - 0) / (((3 : ℝ) - 0) ^ 2 + ((4 : ℝ) - 0) ^ 2)) * (((1 : ℕ) : ℝ) + i))
          ∧ H'.elem 1 i = ((2 : ℕ) : ℝ) + i)
      ∧ ((6 : ℕ) = 6 → H'.elem 0 5 = 0) :=
  C4_CalcDhDa_output ⟨50, ⟨0, 0, 0⟩, 3, fun _ => true⟩ ⟨2, 1, fun _ _ => 0⟩ ⟨3, 4, 0⟩
    ⟨3, 6, fun r c => (r : ℝ) + c⟩ ⟨2, 6, fun _ _ => 7⟩ 6 (Or.inr rfl) ⟨rfl, rfl⟩ ⟨rfl, rfl⟩
    (by norm_num)

/-- C5 (linearity of the first row). For `N = 5` or `N = 6`, a point off the
axis and any initial `H`, the call on the scaled Jacobian `k * J` returns a
first row that is `k` times the first row returned on `J`, in every column. -/
theorem C5_first_row_linear (L : DDCylinderMeasLayer ℝ) (vht : TKalMatrix ℝ)
    (xxv : TVector3 ℝ) (J H : TKalMatrix ℝ) (N : Nat) (k : ℝ) (hN : N = 5 ∨ N = 6)
    (hJ : J.nrows = 3 ∧ J.ncols = N) (hH : H.nrows = 2 ∧ H.ncols = N)
    (hrho : 0 < (xxv.X - L.GetXc.X) ^ 2 + (xxv.Y - L.GetXc.Y) ^ 2) :
    ∃ H1 H2 : TKalMatrix ℝ, CalcDhDa L vht xxv J H = some H1
      ∧ CalcDhDa L vht xxv (TKalMatrix.scale k J) H = some H2
      ∧ ∀ i, i < N → H2.elem 0 i = k * H1.elem 0 i := by
  obtain ⟨hJr, hJc⟩ := hJ
  obtain ⟨hHr, hHc⟩ := hH
  have _ := hrho
  refine ⟨_, _, CalcDhDa_eq L vht xxv J H (by omega) (by omega) (by omega) (by omega),
    CalcDhDa_eq L vht xxv (TKalMatrix.scale k J) H (by simp [TKalMatrix.scale]; omega)
      (by omega) (by omega) (by simp [TKalMatrix.scale]; omega), ?_⟩
  intro i hi
  by_cases h5 : H.ncols = 6 ∧ i = 5
  · simp only [h5, and_self, if_true, mul_zero]
  · have hlt : i < max 5 (H.ncols - 1) := by omega
    simp only [h5, true_and, hlt, if_true, if_false, TKalMatrix.scale]
    ring

/-- Witness of C5: five parameters, the factor 2 and the point `(3, 4, 0)`. -/
theorem C5_first_row_linear_witness :
    ∃ H1 H2 : TKalMatrix ℝ,
      CalcDhDa (⟨50, ⟨0, 0, 0⟩, 3, fun _ => true⟩ : DDCylinderMeasLayer ℝ) ⟨2, 1, fun _ _ => 0⟩ ⟨3, 4, 0⟩
          ⟨3, 5, fun r c => (r : ℝ) + c⟩ ⟨2, 5, fun _ _ => 7⟩ = some H1
      ∧ CalcDhDa (⟨50, ⟨0, 0, 0⟩, 3, fun _ => true⟩ : DDCylinderMeasLayer ℝ) ⟨2, 1, fun _ _ => 0⟩ ⟨3, 4, 0⟩
          (TKalMatrix.scale 2 ⟨3, 5, fun r c => (r : ℝ) + c⟩) ⟨2, 5, fun _ _ => 7⟩ = some H2
      ∧ ∀ i, i < 5 → H2.elem 0 i = 2 * H1.elem 0 i :=
  C5_first_row_linear ⟨50, ⟨0, 0, 0⟩, 3, fun _ => true⟩ ⟨2, 1, fun _ _ => 0⟩ ⟨3, 4, 0⟩
    ⟨3, 5, fun r c => (r : ℝ) + c⟩ ⟨2, 5, fun _ _ => 7⟩ 5 2 (Or.inl rfl) ⟨rfl, rfl⟩ ⟨rfl, rfl⟩
    (by norm_num)

/-- C6, as stated, fails for six parameters: on a `3 x 6` Jacobian of zeros and
a `2 x 6` matrix `H` of ones the call leaves `H[1][5] = 1`, which is not
`J[2][5] = 0`. -/
theorem C6_counterexample :
    ∃ H' : TKalMatrix ℝ,
      CalcDhDa (⟨50, ⟨0, 0, 0⟩, 3, fun _ => true⟩ : DDCylinderMeasLayer ℝ) ⟨2, 1, fun _ _ => 0⟩ ⟨50, 0, 0⟩
          ⟨3, 6, fun _ _ => 0⟩ ⟨2, 6, fun _ _ => 1⟩ = some H'
      ∧ H'.elem 1 5 = 1
      ∧ (⟨3, 6, fun _ _ => 0⟩ : TKalMatrix ℝ).elem 2 5 = 0
      ∧ H'.elem 1 5 ≠ (⟨3, 6, fun _ _ => 0⟩ : TKalMatrix ℝ).elem 2 5 := by
  refine ⟨_, CalcDhDa_eq _ _ _ _ _ (by simp) (by simp) (by simp) (by simp), ?_, rfl, ?_⟩
  · simp
  · simp

/-- C6, amended. For `N = 5` or `N = 6`, every point and every `3 x N`
Jacobian `J`, whatever `H` held before the call, the returned second row
equals the z-row of `J` in the columns `i < 5`; for `N = 6` the entry
`H[1][5]` keeps the value it had before the call. -/
theorem C6_second_row (L : DDCylinderMeasLayer ℝ) (vht : TKalMatrix ℝ)
    (xxv : TVector3 ℝ) (J H : TKalMatrix ℝ) (N : Nat) (hN : N = 5 ∨ N = 6)
    (hJ : J.nrows = 3 ∧ J.ncols = N) (hH : H.nrows = 2 ∧ H.ncols = N) :
    ∃ H' : TKalMatrix ℝ, CalcDhDa L vht xxv J H = some H'
      ∧ (∀ i, i < 5 → H'.elem 1 i = J.elem 2 i)
      ∧ (N = 6 → H'.elem 1 5 = H.elem 1 5) := by
  obtain ⟨hJr, hJc⟩ := hJ
  obtain ⟨hHr, hHc⟩ := hH
  refine ⟨_, CalcDhDa_eq L vht xxv J H (by omega) (by omega) (by omega) (by omega), ?_, ?_⟩
  · intro i hi
    have hlt : i < max 5 (H.ncols - 1) := by omega
    simp only [hlt, if_true, one_ne_zero, false_and, and_false, if_false]
  · intro h6
    have e : H.ncols = 6 := by omega
    simp [e]

/-- Witness of C6 amended: six parameters, the point `(0, 0, 0)` on the axis. -/
theorem C6_second_row_witness :
    ∃ H' : TKalMatrix ℝ,
      CalcDhDa (⟨50, ⟨0, 0, 0⟩, 3, fun _ => true⟩ : DDCylinderMeasLayer ℝ) ⟨2, 1, fun _ _ => 0⟩ ⟨0, 0, 0⟩
          ⟨3, 6, fun r c => (r : ℝ) + c⟩ ⟨2, 6, fun _ _ => 7⟩ = some H'
      ∧ (∀ i, i < 5 → H'.elem 1 i = ((2 : ℕ) : ℝ) + i)
      ∧ ((6 : ℕ) = 6 → H'.elem 1 5 = 7) :=
  C6_second_row ⟨50, ⟨0, 0, 0⟩, 3, fun _ => true⟩ ⟨2, 1, fun _ _ => 0⟩ ⟨0, 0, 0⟩
    ⟨3, 6, fun r c => (r : ℝ) + c⟩ ⟨2, 6, fun _ _ => 7⟩ 6 (Or.inr rfl) ⟨rfl, rfl⟩ ⟨rfl, rfl⟩

/-- C7 (when an artifact is made). The result of `ConvertLCIOTrkHit` is `none`
for an absent hit and for a hit whose position fails `IsOnSurface`, and is a
`DDCylinderHit` otherwise; two hits at the same position, whatever their
uncertainty representations, get the same decision. -/
theorem C7_artifact_decision (L : DDCylinderMeasLayer ℝ) :
    ConvertLCIOTrkHit L none = none
    ∧ (∀ t : TrackerHit,
        L.IsOnSurface ⟨t.getPosition 0, t.getPosition 1, t.getPosition 2⟩ = false →
        ConvertLCIOTrkHit L (some t) = none)
    ∧ (∀ t : TrackerHit,
        L.IsOnSurface ⟨t.getPosition 0, t.getPosition 1, t.getPosition 2⟩ = true →
        ∃ a : DDCylinderHit, ConvertLCIOTrkHit L (some t) = some a)
    ∧ (∀ t t' : TrackerHit, t.getPosition = t'.getPosition →
        (ConvertLCIOTrkHit L (some t)).isSome = (ConvertLCIOTrkHit L (some t')).isSome) := by
  refine ⟨rfl, ?_, ?_, ?_⟩
  · intro t h
    simp [ConvertLCIOTrkHit, h]
  · intro t h
    simp [ConvertLCIOTrkHit, h]
  · intro t t' h
    cases hs : L.IsOnSurface ⟨t.getPosition 0, t.getPosition 1, t.getPosition 2⟩
    · have hs' := hs
      rw [h] at hs'
      simp [ConvertLCIOTrkHit, hs, hs']
    · have hs' := hs
      rw [h] at hs'
      simp [ConvertLCIOTrkHit, hs, hs']

/-- Witness of C7: a layer of radius 50 that accepts the points exactly on it;
the covariance hit at `(0, 50, 10)` is accepted and the structured hit at
`(0, 0, 10)` is rejected. -/
theorem C7_artifact_decision_witness :
    (∃ a : DDCylinderHit,
      ConvertLCIOTrkHit ⟨50, ⟨0, 0, 0⟩, 3, fun v => decide (v.X ^ 2 + v.Y ^ 2 = 50 ^ 2)⟩
        (some ⟨![0, 50, 10], ![1, 0, 1, 0, 0, 4], none⟩) = some a)
    ∧ ConvertLCIOTrkHit ⟨50, ⟨0, 0, 0⟩, 3, fun v => decide (v.X ^ 2 + v.Y ^ 2 = 50 ^ 2)⟩
        (some ⟨![0, 0, 10], ![1, 0, 1, 0, 0, 4], some ⟨1, 2⟩⟩) = none :=
  ⟨(C7_artifact_decision ⟨50, ⟨0, 0, 0⟩, 3, fun v => decide (v.X ^ 2 + v.Y ^ 2 = 50 ^ 2)⟩).2.2.1
      ⟨![0, 50, 10], ![1, 0, 1, 0, 0, 4], none⟩ (by simp),
   (C7_artifact_decision ⟨50, ⟨0, 0, 0⟩, 3, fun v => decide (v.X ^ 2 + v.Y ^ 2 = 50 ^ 2)⟩).2.1
      ⟨![0, 0, 10], ![1, 0, 1, 0, 0, 4], some ⟨1, 2⟩⟩ (by norm_num)⟩

/-- C8 (content of the artifact). Whenever `ConvertLCIOTrkHit` returns a hit, it
carries the local vector `XvToMv` of the hit position, the uncertainty pair
computed from the raw hit, `GetBz()` and the raw hit itself; for a structured
hit the uncertainty pair is `(dRPhi, dZ)` of that hit. A hit is returned only
for a position that passes `IsOnSurface`. -/
theorem C8_artifact_content (L : DDCylinderMeasLayer ℝ) (t : TrackerHit) (a : DDCylinderHit)
    (h : ConvertLCIOTrkHit L (some t) = some a) :
    a.x = ((XvToMv L ⟨t.getPosition 0, t.getPosition 1, t.getPosition 2⟩).elem 0 0,
           (XvToMv L ⟨t.getPosition 0, t.getPosition 1, t.getPosition 2⟩).elem 1 0)
    ∧ a.dx = ConvertLCIOTrkHit.dx t
    ∧ a.bfield = L.GetBz
    ∧ a.trkhit = t
    ∧ (∀ c : TrackerHitZCylinder, t.asZCylinder = some c → a.dx = (c.getdRPhi, c.getdZ))
    ∧ L.IsOnSurface ⟨t.getPosition 0, t.getPosition 1, t.getPosition 2⟩ = true := by
  unfold ConvertLCIOTrkHit at h
  simp only at h
  split at h
  · rename_i hs
    simp only [Option.some.injEq] at h
    subst h
    refine ⟨rfl, rfl, rfl, rfl, ?_, hs⟩
    intro c hc
    simp [ConvertLCIOTrkHit.dx, hc]
  · exact absurd h (by simp)

/-- Witness of C8, the end-to-end example: radius 50, centre at the origin, raw
hit at `(50, 0, 10)` with the structured uncertainty `(0.01, 0.1)`; the
artifact has the local vector `(0, 10)` and the uncertainty `(0.01, 0.1)`. -/
theorem C8_artifact_content_witness :
    ∃ a : DDCylinderHit,
      ConvertLCIOTrkHit ⟨50, ⟨0, 0, 0⟩, 3, fun v => decide (v.X ^ 2 + v.Y ^ 2 = 50 ^ 2)⟩
        (some ⟨![50, 0, 10], ![0, 0, 0, 0, 0, 0], some ⟨0.01, 0.1⟩⟩) = some a
      ∧ a.x = (0, 10) ∧ a.dx = (0.01, 0.1) ∧ a.bfield = 3 := by
  have hphi : XvToMv.phi ⟨50, ⟨0, 0, 0⟩, 3, fun v => decide (v.X ^ 2 + v.Y ^ 2 = 50 ^ 2)⟩
      ⟨50, 0, 10⟩ = 0 := by
    rw [phi_eq_arg]
    have e : (⟨(50 : ℝ) - 0, (0 : ℝ) - 0⟩ : ℂ) = ((50 : ℝ) : ℂ) := by
      apply Complex.ext <;> simp
    rw [e]
    exact Complex.arg_ofReal_of_nonneg (by norm_num)
  have hacc : ConvertLCIOTrkHit ⟨50, ⟨0, 0, 0⟩, 3, fun v => decide (v.X ^ 2 + v.Y ^ 2 = 50 ^ 2)⟩
      (some ⟨![50, 0, 10], ![0, 0, 0, 0, 0, 0], some ⟨0.01, 0.1⟩⟩)
      = some ⟨⟨50, ⟨0, 0, 0⟩, 3, fun v => decide (v.X ^ 2 + v.Y ^ 2 = 50 ^ 2)⟩,
          (0, 10), (0.01, 0.1), 3, ⟨![50, 0, 10], ![0, 0, 0, 0, 0, 0], some ⟨0.01, 0.1⟩⟩⟩ := by
    simp only [ConvertLCIOTrkHit, ConvertLCIOTrkHit.dx, XvToMv, TVector3.sub]
    simp [hphi]
  have hc := C8_artifact_content _ _ _ hacc
  exact ⟨_, hacc, hc.1.trans (by simp [XvToMv, hphi, TVector3.sub]),
    hc.2.2.2.2.1 ⟨0.01, 0.1⟩ rfl, hc.2.2.1⟩

/-- C9 (covariance fallback). For a raw hit that is not a structured cylinder
hit the uncertainty pair is `(sqrt (cov[0] + cov[2]), sqrt cov[5])`, it is the
pair an accepted artifact carries, it is the same for two such hits that agree
on `cov[0]`, `cov[2]`, `cov[5]`, and for `cov[0] = cov[2] = s^2`,
`cov[5] = sz^2` with `s, sz >= 0` it is `(s * sqrt 2, sz)`. -/
theorem C9_covariance_fallback (L : DDCylinderMeasLayer ℝ) (t : TrackerHit)
    (hcast : t.asZCylinder = none) :
    ConvertLCIOTrkHit.dx t
      = (Real.sqrt (t.getCovMatrix 0 + t.getCovMatrix 2), Real.sqrt (t.getCovMatrix 5))
    ∧ (∀ a : DDCylinderHit, ConvertLCIOTrkHit L (some t) = some a →
        a.dx = (Real.sqrt (t.getCovMatrix 0 + t.getCovMatrix 2), Real.sqrt (t.getCovMatrix 5)))
    ∧ (∀ t' : TrackerHit, t'.asZCylinder = none →
        t'.getCovMatrix 0 = t.getCovMatrix 0 → t'.getCovMatrix 2 = t.getCovMatrix 2 →
        t'.getCovMatrix 5 = t.getCovMatrix 5 →
        ConvertLCIOTrkHit.dx t' = ConvertLCIOTrkHit.dx t)
    ∧ (∀ s sz : ℝ, 0 ≤ s → 0 ≤ sz →
        t.getCovMatrix 0 = s ^ 2 → t.getCovMatrix 2 = s ^ 2 → t.getCovMatrix 5 = sz ^ 2 →
        ConvertLCIOTrkHit.dx t = (s * Real.sqrt 2, sz)) := by
  have h1 : ConvertLCIOTrkHit.dx t
      = (Real.sqrt (t.getCovMatrix 0 + t.getCovMatrix 2), Real.sqrt (t.getCovMatrix 5)) := by
    simp [ConvertLCIOTrkHit.dx, hcast]
  refine ⟨h1, ?_, ?_, ?_⟩
  · intro a ha
    unfold ConvertLCIOTrkHit at ha
    simp only at ha
    split at ha
    · simp only [Option.some.injEq] at ha
      subst ha
      exact h1
    · exact absurd ha (by simp)
  · intro t' hc' e0 e2 e5
    rw [h1]
    simp [ConvertLCIOTrkHit.dx, hc', e0, e2, e5]
  · intro s sz hs hsz e0 e2 e5
    rw [h1, e0, e2, e5]
    have a1 : Real.sqrt (s ^ 2 + s ^ 2) = s * Real.sqrt 2 := by
      rw [show s ^ 2 + s ^ 2 = s ^ 2 * 2 by ring, Real.sqrt_mul (sq_nonneg s), Real.sqrt_sq hs]
    rw [a1, Real.sqrt_sq hsz]

/-- Witness of C9: the covariance with the diagonal `(9, 9, 4)` and non-zero
off-diagonal entries gives the pair `(3 * sqrt 2, 2)`. -/
theorem C9_covariance_fallback_witness :
    ConvertLCIOTrkHit.dx ⟨![50, 0, 10], ![9, 1, 9, 5, 7, 4], none⟩ = (3 * Real.sqrt 2, 2) :=
  (C9_covariance_fallback ⟨50, ⟨0, 0, 0⟩, 3, fun _ => true⟩
      ⟨![50, 0, 10], ![9, 1, 9, 5, 7, 4], none⟩ rfl).2.2.2 3 2
    (by norm_num) (by norm_num) (by show (9 : ℝ) = 3 ^ 2; norm_num)
    (by show (9 : ℝ) = 3 ^ 2; norm_num) (by show (4 : ℝ) = 2 ^ 2; norm_num)

/-- C10 (the result of `HitToXv` is on the cylinder). For a layer with positive
radius and every local measurement vector, the point `(x, y, z)` returned by
`HitToXv` has `(x - xc)^2 + (y - yc)^2 = R^2` and `z = m1`. -/
theorem C10_HitToXv_on_cylinder (L : DDCylinderMeasLayer ℝ) (vht : TKalMatrix ℝ)
    (hR : 0 < L.GetR) :
    ((HitToXv L vht).X - L.GetXc.X) ^ 2 + ((HitToXv L vht).Y - L.GetXc.Y) ^ 2 = L.GetR ^ 2
    ∧ (HitToXv L vht).Z = vht.elem 1 0 := by
  have _ := hR
  constructor
  · simp only [HitToXv, add_sub_cancel_right]
    have h := Real.cos_sq_add_sin_sq (vht.elem 0 0 / L.GetR)
    calc (L.GetR * Real.cos (vht.elem 0 0 / L.GetR)) ^ 2
          + (L.GetR * Real.sin (vht.elem 0 0 / L.GetR)) ^ 2
        = L.GetR ^ 2 * (Real.cos (vht.elem 0 0 / L.GetR) ^ 2
            + Real.sin (vht.elem 0 0 / L.GetR) ^ 2) := by ring
      _ = L.GetR ^ 2 := by rw [h, mul_one]
  · rfl

/-- Witness of C10: radius 50 about `(1, 2, 0)` and the local vector `(7, 10)`. -/
theorem C10_HitToXv_on_cylinder_witness :
    ((HitToXv ⟨50, ⟨1, 2, 0⟩, 3, fun _ => true⟩ ⟨2, 1, fun r _ => if r = 0 then 7 else 10⟩).X
        - 1) ^ 2
      + ((HitToXv ⟨50, ⟨1, 2, 0⟩, 3, fun _ => true⟩ ⟨2, 1, fun r _ => if r = 0 then 7 else 10⟩).Y
        - 2) ^ 2 = (50 : ℝ) ^ 2
    ∧ (HitToXv ⟨50, ⟨1, 2, 0⟩, 3, fun _ => true⟩ ⟨2, 1, fun r _ => if r = 0 then 7 else 10⟩).Z
      = 10 :=
  C10_HitToXv_on_cylinder ⟨50, ⟨1, 2, 0⟩, 3, fun _ => true⟩
    ⟨2, 1, fun r _ => if r = 0 then 7 else 10⟩ (by norm_num)

/-- C11, as stated, fails. With `Double_t` values, for the layer of radius 50
about `(1, 2, 0)` and the point `(1, 2, 5)` on its axis, the divisor `xxyy` is
`0`, the quotient `yv / xxyy` is `0 / 0`, which is NaN, and the call returns a
matrix (nothing is reported) whose entry `H[0][0]` is NaN (nothing is
clamped). -/
theorem C11_counterexample :
    ((⟨.finite 1, .finite 2, .finite 5⟩ : TVector3 (Double_t ℝ)).sub
        ⟨.finite 1, .finite 2, .finite 0⟩).X
      * ((⟨.finite 1, .finite 2, .finite 5⟩ : TVector3 (Double_t ℝ)).sub
        ⟨.finite 1, .finite 2, .finite 0⟩).X
      + ((⟨.finite 1, .finite 2, .finite 5⟩ : TVector3 (Double_t ℝ)).sub
        ⟨.finite 1, .finite 2, .finite 0⟩).Y
      * ((⟨.finite 1, .finite 2, .finite 5⟩ : TVector3 (Double_t ℝ)).sub
        ⟨.finite 1, .finite 2, .finite 0⟩).Y = Double_t.finite 0
    ∧ (Double_t.finite 0 / Double_t.finite 0 : Double_t ℝ) = Double_t.nan
    ∧ ∃ H' : TKalMatrix (Double_t ℝ),
        CalcDhDa
          (⟨.finite 50, ⟨.finite 1, .finite 2, .finite 0⟩, .finite 3, fun _ => true⟩ :
            DDCylinderMeasLayer (Double_t ℝ))
          ⟨2, 1, fun _ _ => .finite 0⟩ ⟨.finite 1, .finite 2, .finite 5⟩
          ⟨3, 5, fun _ _ => .finite 1⟩ ⟨2, 5, fun _ _ => .finite 0⟩ = some H'
        ∧ H'.elem 0 0 = Double_t.nan := by
  refine ⟨?_, Double_t.zero_div_zero, _,
    CalcDhDa_eq _ _ _ _ _ (by simp) (by simp) (by simp) (by simp), ?_⟩
  · simp [TVector3.sub, Double_t.finite_sub, Double_t.finite_mul, Double_t.finite_add]
  · simp [Double_t.finite_sub, Double_t.finite_mul, Double_t.finite_add,
      Double_t.zero_div_zero, Double_t.neg_nan, Double_t.nan_mul, Double_t.nan_add]

/-- C11, amended. With `Double_t` values, for `N >= 5`, a `2 x N` matrix `H`, a
`3 x N` matrix `J` and a point on the axis (finite coordinates with
`x = xc`, `y = yc`), `CalcDhDa` has no guard: the divisor `xxyy` is `0`, both
quotients `yv / xxyy` and `xv / xxyy` are NaN, the call returns a matrix
without reporting, and in every column `i < max 5 (N - 1)` of its loop the
result has `H[0][i]` equal to NaN and `H[1][i] = J[2][i]`. -/
theorem C11_axis_unguarded (L : DDCylinderMeasLayer (Double_t ℝ))
    (vht : TKalMatrix (Double_t ℝ)) (xxv : TVector3 (Double_t ℝ))
    (J H : TKalMatrix (Double_t ℝ)) (N : Nat) (x y : ℝ) (hN : 5 ≤ N)
    (hJ : J.nrows = 3 ∧ J.ncols = N) (hH : H.nrows = 2 ∧ H.ncols = N)
    (hx : xxv.X = Double_t.finite x ∧ L.GetXc.X = Double_t.finite x)
    (hy : xxv.Y = Double_t.finite y ∧ L.GetXc.Y = Double_t.finite y) :
    (xxv.sub L.GetXc).X * (xxv.sub L.GetXc).X + (xxv.sub L.GetXc).Y * (xxv.sub L.GetXc).Y
      = Double_t.finite 0
    ∧ (xxv.sub L.GetXc).Y
        / ((xxv.sub L.GetXc).X * (xxv.sub L.GetXc).X
            + (xxv.sub L.GetXc).Y * (xxv.sub L.GetXc).Y) = Double_t.nan
    ∧ (xxv.sub L.GetXc).X
        / ((xxv.sub L.GetXc).X * (xxv.sub L.GetXc).X
            + (xxv.sub L.GetXc).Y * (xxv.sub L.GetXc).Y) = Double_t.nan
    ∧ ∃ H' : TKalMatrix (Double_t ℝ), CalcDhDa L vht xxv J H = some H'
        ∧ ∀ i, i < max 5 (N - 1) → H'.elem 0 i = Double_t.nan ∧ H'.elem 1 i = J.elem 2 i := by
  obtain ⟨hJr, hJc⟩ := hJ
  obtain ⟨hHr, hHc⟩ := hH
  obtain ⟨hx1, hx2⟩ := hx
  obtain ⟨hy1, hy2⟩ := hy
  have ex : xxv.X - L.GetXc.X = Double_t.finite 0 := by
    rw [hx1, hx2, Double_t.finite_sub, sub_self]
  have ey : xxv.Y - L.GetXc.Y = Double_t.finite 0 := by
    rw [hy1, hy2, Double_t.finite_sub, sub_self]
  have exy : (xxv.X - L.GetXc.X) * (xxv.X - L.GetXc.X)
      + (xxv.Y - L.GetXc.Y) * (xxv.Y - L.GetXc.Y) = Double_t.finite 0 := by
    rw [ex, ey, Double_t.finite_mul, Double_t.finite_add, mul_zero, add_zero]
  refine ⟨?_, ?_, ?_, _,
    CalcDhDa_eq L vht xxv J H (by omega) (by omega) (by omega) (by omega), ?_⟩
  · simp only [TVector3.sub]; exact exy
  · simp only [TVector3.sub]; rw [exy, ey]; exact Double_t.zero_div_zero
  · simp only [TVector3.sub]; rw [exy, ex]; exact Double_t.zero_div_zero
  · intro i hi
    have hlt : i < max 5 (H.ncols - 1) := by rw [hHc]; exact hi
    have h5 : ¬ (H.ncols = 6 ∧ i = 5) := by omega
    constructor
    · simp only [h5, true_and, hlt, if_true, if_false]
      rw [exy, ex, ey, Double_t.zero_div_zero, Double_t.neg_nan, Double_t.nan_mul,
        Double_t.nan_add, Double_t.nan_mul]
    · simp only [hlt, if_true, one_ne_zero, false_and, and_false, if_false]

/-- Witness of C11 amended: six parameters, the layer about `(1, 2, 0)` and the
point `(1, 2, 5)` on its axis; the columns 0 to 4 of the first row are NaN. -/
theorem C11_axis_unguarded_witness :
    ∃ H' : TKalMatrix (Double_t ℝ),
      CalcDhDa
        (⟨.finite 50, ⟨.finite 1, .finite 2, .finite 0⟩, .finite 3, fun _ => true⟩ :
          DDCylinderMeasLayer (Double_t ℝ))
        ⟨2, 1, fun _ _ => .finite 0⟩ ⟨.finite 1, .finite 2, .finite 5⟩
        ⟨3, 6, fun r c => .finite ((r : ℝ) + c)⟩ ⟨2, 6, fun _ _ => .finite 7⟩ = some H'
      ∧ ∀ i, i < max 5 (6 - 1) →
          H'.elem 0 i = Double_t.nan ∧ H'.elem 1 i = Double_t.finite (((2 : ℕ) : ℝ) + i) :=
  (C11_axis_unguarded
    ⟨.finite 50, ⟨.finite 1, .finite 2, .finite 0⟩, .finite 3, fun _ => true⟩
    ⟨2, 1, fun _ _ => .finite 0⟩ ⟨.finite 1, .finite 2, .finite 5⟩
    ⟨3, 6, fun r c => .finite ((r : ℝ) + c)⟩ ⟨2, 6, fun _ _ => .finite 7⟩ 6 1 2
    (by norm_num) ⟨rfl, rfl⟩ ⟨rfl, rfl⟩ ⟨rfl, rfl⟩ ⟨rfl, rfl⟩).2.2.2

/-- C12 (the first row is the derivative of the measurement). For a layer with
positive radius and a point `(x, y, z)` whose centre-corrected coordinates are
off the half line `y' = 0`, `x' <= 0` (hence off the axis), the coefficients
`R * (-(y'/rho^2))` and `R * (x'/rho^2)` are the partial derivatives of the
first local coordinate of `XvToMv` with respect to `x` and `y`, the partial
derivative with respect to `z` is `0`, along every path through the point with
planar derivative `(j0, j1)` the coordinate has the derivative
`R * (-(y'/rho^2) * j0 + (x'/rho^2) * j1)`, and `CalcDhDa` returns this
combination of column `i` of `J` in `H[0][i]` for every column of its loop. -/
theorem C12_first_row_is_derivative (L : DDCylinderMeasLayer ℝ) (x y z : ℝ)
    (hR : 0 < L.GetR) (hslit : ¬ (y - L.GetXc.Y = 0 ∧ x - L.GetXc.X ≤ 0)) :
    HasDerivAt (fun s => (XvToMv L ⟨s, y, z⟩).elem 0 0)
      (L.GetR * (-((y - L.GetXc.Y) / ((x - L.GetXc.X) ^ 2 + (y - L.GetXc.Y) ^ 2)))) x
    ∧ HasDerivAt (fun s => (XvToMv L ⟨x, s, z⟩).elem 0 0)
      (L.GetR * ((x - L.GetXc.X) / ((x - L.GetXc.X) ^ 2 + (y - L.GetXc.Y) ^ 2))) y
    ∧ HasDerivAt (fun s => (XvToMv L ⟨x, y, s⟩).elem 0 0) 0 z
    ∧ (∀ (X Y Z : ℝ → ℝ) (t j0 j1 : ℝ), X t = x → Y t = y →
        HasDerivAt X j0 t → HasDerivAt Y j1 t →
        HasDerivAt (fun s => (XvToMv L ⟨X s, Y s, Z s⟩).elem 0 0)
          (L.GetR * (-((y - L.GetXc.Y) / ((x - L.GetXc.X) ^ 2 + (y - L.GetXc.Y) ^ 2)))
              * j0
            + L.GetR * ((x - L.GetXc.X) / ((x - L.GetXc.X) ^ 2 + (y - L.GetXc.Y) ^ 2))
              * j1) t)
    ∧ (∀ (vht J H : TKalMatrix ℝ) (N : Nat), 5 ≤ N → J.nrows = 3 ∧ J.ncols = N →
        H.nrows = 2 ∧ H.ncols = N →
        ∃ H' : TKalMatrix ℝ, CalcDhDa L vht ⟨x, y, z⟩ J H = some H'
          ∧ ∀ i, i < max 5 (N - 1) →
              H'.elem 0 i
                = L.GetR * (-((y - L.GetXc.Y) / ((x - L.GetXc.X) ^ 2 + (y - L.GetXc.Y) ^ 2)))
                    * J.elem 0 i
                  + L.GetR * ((x - L.GetXc.X) / ((x - L.GetXc.X) ^ 2 + (y - L.GetXc.Y) ^ 2))
                    * J.elem 1 i) := by
  have _ := hR
  have chain : ∀ (X Y Z : ℝ → ℝ) (t j0 j1 : ℝ), X t = x → Y t = y →
      HasDerivAt X j0 t → HasDerivAt Y j1 t →
      HasDerivAt (fun s => (XvToMv L ⟨X s, Y s, Z s⟩).elem 0 0)
        (L.GetR * (-((y - L.GetXc.Y) / ((x - L.GetXc.X) ^ 2 + (y - L.GetXc.Y) ^ 2)))
            * j0
          + L.GetR * ((x - L.GetXc.X) / ((x - L.GetXc.X) ^ 2 + (y - L.GetXc.Y) ^ 2))
            * j1) t := by
    intro X Y Z t j0 j1 hx hy hX hY
    have h := m0_hasDerivAt L X Y Z t j0 j1 hX hY (by rw [hx, hy]; exact hslit)
    rw [hx, hy] at h
    convert h using 1
    ring
  refine ⟨?_, ?_, ?_, chain, ?_⟩
  · have h := chain (fun s => s) (fun _ => y) (fun _ => z) x 1 0 rfl rfl
      (hasDerivAt_id x) (hasDerivAt_const x y)
    convert h using 1
    ring
  · have h := chain (fun _ => x) (fun s => s) (fun _ => z) y 0 1 rfl rfl
      (hasDerivAt_const y x) (hasDerivAt_id y)
    convert h using 1
    ring
  · have h := chain (fun _ => x) (fun _ => y) (fun s => s) z 0 0 rfl rfl
      (hasDerivAt_const z x) (hasDerivAt_const z y)
    convert h using 1
    ring
  · rintro vht J H N hN ⟨hJr, hJc⟩ ⟨hHr, hHc⟩
    refine ⟨_, CalcDhDa_eq L vht ⟨x, y, z⟩ J H (by omega) (by omega) (by omega) (by omega), ?_⟩
    intro i hi
    have hlt : i < max 5 (H.ncols - 1) := by rw [hHc]; exact hi
    have h5 : ¬ (H.ncols = 6 ∧ i = 5) := by omega
    simp only [h5, true_and, hlt, if_true, if_false, sq]
    ring

/-- Witness of C12: radius 50 about the origin and the point `(3, 4, 0)`; the
partial derivatives of the first local coordinate are `50 * (-(4 / 25))` and
`50 * (3 / 25)`. -/
theorem C12_first_row_is_derivative_witness :
    HasDerivAt (fun s => (XvToMv ⟨50, ⟨0, 0, 0⟩, 3, fun _ => true⟩ ⟨s, 4, 0⟩).elem 0 0)
      (50 * (-((4 - 0) / ((3 - 0) ^ 2 + (4 - 0) ^ 2)))) 3
    ∧ HasDerivAt (fun s => (XvToMv ⟨50, ⟨0, 0, 0⟩, 3, fun _ => true⟩ ⟨3, s, 0⟩).elem 0 0)
      (50 * ((3 - 0) / ((3 - 0) ^ 2 + (4 - 0) ^ 2))) 4 :=
  ⟨(C12_first_row_is_derivative ⟨50, ⟨0, 0, 0⟩, 3, fun _ => true⟩ 3 4 0 (by norm_num)
      (by norm_num)).1,
   (C12_first_row_is_derivative ⟨50, ⟨0, 0, 0⟩, 3, fun _ => true⟩ 3 4 0 (by norm_num)
      (by norm_num)).2.1⟩

/-- C13, as stated, fails at the input `-3 * pi`: the first loop stops at
`-pi`, the second does not run, and `-pi` is not in `(-pi, pi]`. -/
theorem C13_counterexample :
    XvToMv.normalize (-3 * Real.pi) = -Real.pi
    ∧ ¬ (-Real.pi < XvToMv.normalize (-3 * Real.pi)) := by
  have hpi := Real.pi_pos
  have h : XvToMv.normalize (-3 * Real.pi) = -Real.pi := by
    unfold XvToMv.normalize
    rw [XvToMv.whileBelow, dif_pos (by unfold kPi; linarith)]
    rw [show -3 * Real.pi + kTwoPi = -Real.pi by unfold kTwoPi kPi; ring]
    rw [whileBelow_of_ge _ (by unfold kPi; exact le_refl _)]
    exact whileAbove_of_le _ (by unfold kPi; linarith)
  exact ⟨h, by rw [h]; exact lt_irrefl _⟩

/-- C13, amended. The normalisation loops, as a function of an arbitrary real
angle (a total function: both loops terminate on every input), return a value
in the closed interval `[-pi, pi]` that differs from the input by an integer
multiple of `2 * pi`; the value is `-pi` exactly for the inputs
`-pi - n * (2 * pi)`, `n = 0, 1, 2, ...`. -/
theorem C13_normalize_range (phi : ℝ) :
    (-Real.pi ≤ XvToMv.normalize phi ∧ XvToMv.normalize phi ≤ Real.pi)
    ∧ (∃ k : ℤ, XvToMv.normalize phi = phi + k * (2 * Real.pi))
    ∧ (XvToMv.normalize phi = -Real.pi ↔ ∃ n : ℕ, phi = -Real.pi - n * (2 * Real.pi)) := by
  have hpi := Real.pi_pos
  obtain ⟨⟨k1, hk1⟩, hb1, hb2⟩ := whileBelow_spec phi
  obtain ⟨⟨k2, hk2⟩, ha1, ha2⟩ := whileAbove_spec (XvToMv.whileBelow phi)
  unfold kTwoPi kPi at hk1 hk2
  unfold kPi at hb1 hb2 ha1 ha2
  have hn : XvToMv.normalize phi = XvToMv.whileAbove (XvToMv.whileBelow phi) := rfl
  have hlow : -Real.pi ≤ XvToMv.normalize phi := by
    rw [hn]
    by_cases hgt : XvToMv.whileBelow phi > Real.pi
    · exact le_of_lt (ha2 hgt)
    · rw [whileAbove_of_le _ (by unfold kPi; exact not_lt.mp hgt)]
      exact hb1
  refine ⟨⟨hlow, ha1⟩, ⟨(k1 : ℤ) - k2, ?_⟩, ?_⟩
  · rw [hn, hk2, hk1]; push_cast; ring
  · constructor
    · intro he
      by_cases hlt : phi < -Real.pi
      · have h3 := hb2 hlt
        have h4 : XvToMv.whileAbove (XvToMv.whileBelow phi) = XvToMv.whileBelow phi :=
          whileAbove_of_le _ (by unfold kPi; exact le_of_lt h3)
        rw [hn, h4, hk1] at he
        exact ⟨k1, by linarith⟩
      · have h5 : XvToMv.whileBelow phi = phi :=
          whileBelow_of_ge _ (by unfold kPi; exact not_lt.mp hlt)
        rw [h5] at ha2 hn
        by_cases hgt : phi > Real.pi
        · have := ha2 hgt
          rw [← hn, he] at this
          exact absurd this (lt_irrefl _)
        · rw [whileAbove_of_le _ (by unfold kPi; exact not_lt.mp hgt)] at hn
          exact ⟨0, by rw [← hn, he]; simp⟩
    · rintro ⟨n, hphi⟩
      have h6 : XvToMv.whileBelow phi = -Real.pi := by
        by_cases hlt : phi < -Real.pi
        · have h3 := hb2 hlt
          rw [hk1, hphi] at hb1 h3
          have e1 : (n : ℝ) ≤ k1 := by nlinarith
          have e2 : (k1 : ℝ) < n + 1 := by nlinarith
          have e3 : n ≤ k1 := by exact_mod_cast e1
          have e4 : k1 < n + 1 := by exact_mod_cast e2
          have e5 : k1 = n := by omega
          rw [hk1, hphi, e5]; ring
        · have hn0 : (n : ℝ) * (2 * Real.pi) ≤ 0 := by
            have := not_lt.mp hlt
            rw [hphi] at this
            linarith
          rw [whileBelow_of_ge _ (by unfold kPi; exact not_lt.mp hlt), hphi]
          have : 0 ≤ (n : ℝ) * (2 * Real.pi) := by positivity
          linarith
      rw [hn, h6]
      exact whileAbove_of_le _ (by unfold kPi; linarith)

/-- C14 (reverse round trip). For a layer with positive radius and a centre
whose z-component is zero, and a local measurement vector `(m0, m1)` with
`-pi * R < m0 <= pi * R`, `XvToMv (HitToXv (m0, m1))` is the `2 x 1` matrix
with the entries `m0` and `m1`. -/
theorem C14_XvToMv_HitToXv (L : DDCylinderMeasLayer ℝ) (vht : TKalMatrix ℝ)
    (hR : 0 < L.GetR) (hz : L.GetXc.Z = 0)
    (h1 : -Real.pi * L.GetR < vht.elem 0 0) (h2 : vht.elem 0 0 ≤ Real.pi * L.GetR) :
    (XvToMv L (HitToXv L vht)).elem 0 0 = vht.elem 0 0
    ∧ (XvToMv L (HitToXv L vht)).elem 1 0 = vht.elem 1 0
    ∧ (XvToMv L (HitToXv L vht)).nrows = 2
    ∧ (XvToMv L (HitToXv L vht)).ncols = 1 := by
  have hR0 : L.GetR ≠ 0 := ne_of_gt hR
  have b1 : -Real.pi < vht.elem 0 0 / L.GetR := by
    rw [lt_div_iff₀ hR]; exact h1
  have b2 : vht.elem 0 0 / L.GetR ≤ Real.pi := by
    rw [div_le_iff₀ hR]; exact h2
  have hphi : XvToMv.phi L (HitToXv L vht) = vht.elem 0 0 / L.GetR := by
    rw [phi_eq_arg]
    simp only [HitToXv, add_sub_cancel_right]
    exact arg_polar L.GetR (vht.elem 0 0 / L.GetR) hR b1 b2
  refine ⟨?_, ?_, rfl, rfl⟩
  · simp only [XvToMv, hphi, and_self, if_true]
    field_simp
  · simp [XvToMv, HitToXv, TVector3.sub, hz]

/-- Witness of C14: radius 50 about `(1, 2, 0)` and the local vector `(7, 10)`. -/
theorem C14_XvToMv_HitToXv_witness :
    (XvToMv ⟨50, ⟨1, 2, 0⟩, 3, fun _ => true⟩
        (HitToXv ⟨50, ⟨1, 2, 0⟩, 3, fun _ => true⟩
          ⟨2, 1, fun r _ => if r = 0 then 7 else 10⟩)).elem 0 0 = 7
    ∧ (XvToMv ⟨50, ⟨1, 2, 0⟩, 3, fun _ => true⟩
        (HitToXv ⟨50, ⟨1, 2, 0⟩, 3, fun _ => true⟩
          ⟨2, 1, fun r _ => if r = 0 then 7 else 10⟩)).elem 1 0 = 10
    ∧ (XvToMv ⟨50, ⟨1, 2, 0⟩, 3, fun _ => true⟩
        (HitToXv ⟨50, ⟨1, 2, 0⟩, 3, fun _ => true⟩
          ⟨2, 1, fun r _ => if r = 0 then 7 else 10⟩)).nrows = 2
    ∧ (XvToMv ⟨50, ⟨1, 2, 0⟩, 3, fun _ => true⟩
        (HitToXv ⟨50, ⟨1, 2, 0⟩, 3, fun _ => true⟩
          ⟨2, 1, fun r _ => if r = 0 then 7 else 10⟩)).ncols = 1 :=
  C14_XvToMv_HitToXv ⟨50, ⟨1, 2, 0⟩, 3, fun _ => true⟩
    ⟨2, 1, fun r _ => if r = 0 then 7 else 10⟩ (by norm_num) rfl
    (by show -Real.pi * 50 < 7; linarith [Real.pi_pos])
    (by show (7 : ℝ) ≤ Real.pi * 50; linarith [Real.pi_gt_three])

/-- C15 (the composition in general). For a layer with positive radius, any
centre `(xc, yc, zc)` and a point `p` off the axis, with `x' = p.x - xc`,
`y' = p.y - yc` and `rho = sqrt (x'^2 + y'^2) > 0`,
`HitToXv (XvToMv p) = (xc + R * x' / rho, yc + R * y' / rho, p.z - zc)`. -/
theorem C15_HitToXv_XvToMv_general (L : DDCylinderMeasLayer ℝ) (p : TVector3 ℝ)
    (hR : 0 < L.GetR)
    (hrho : 0 < Real.sqrt ((p.X - L.GetXc.X) ^ 2 + (p.Y - L.GetXc.Y) ^ 2)) :
    HitToXv L (XvToMv L p)
      = ⟨L.GetXc.X + L.GetR * (p.X - L.GetXc.X)
            / Real.sqrt ((p.X - L.GetXc.X) ^ 2 + (p.Y - L.GetXc.Y) ^ 2),
         L.GetXc.Y + L.GetR * (p.Y - L.GetXc.Y)
            / Real.sqrt ((p.X - L.GetXc.X) ^ 2 + (p.Y - L.GetXc.Y) ^ 2),
         p.Z - L.GetXc.Z⟩ := by
  have hR0 : L.GetR ≠ 0 := ne_of_gt hR
  have habs : Complex.abs ⟨p.X - L.GetXc.X, p.Y - L.GetXc.Y⟩
      = Real.sqrt ((p.X - L.GetXc.X) ^ 2 + (p.Y - L.GetXc.Y) ^ 2) := by
    rw [Complex.abs_apply, Complex.normSq_mk, sq, sq]
  have hne : (⟨p.X - L.GetXc.X, p.Y - L.GetXc.Y⟩ : ℂ) ≠ 0 := by
    intro h0
    rw [h0, map_zero] at habs
    rw [← habs] at hrho
    exact lt_irrefl _ hrho
  have hcos := Complex.cos_arg hne
  have hsin := Complex.sin_arg (⟨p.X - L.GetXc.X, p.Y - L.GetXc.Y⟩ : ℂ)
  rw [habs] at hcos hsin
  simp only at hcos hsin
  simp only [HitToXv, XvToMv, phi_eq_arg, TVector3.sub, and_self, if_true,
    one_ne_zero, false_and, if_false, true_and, mul_div_cancel_left₀ _ hR0]
  rw [hcos, hsin]
  congr 1
  · ring
  · ring

/-- Witness of C15: radius 50 about `(1, 2, 7)` and the point `(4, 6, 10)`, at
distance 5 from the axis. -/
theorem C15_HitToXv_XvToMv_general_witness :
    HitToXv ⟨50, ⟨1, 2, 7⟩, 3, fun _ => true⟩
        (XvToMv ⟨50, ⟨1, 2, 7⟩, 3, fun _ => true⟩ ⟨4, 6, 10⟩)
      = ⟨1 + 50 * (4 - 1) / Real.sqrt ((4 - 1) ^ 2 + (6 - 2) ^ 2),
         2 + 50 * (6 - 2) / Real.sqrt ((4 - 1) ^ 2 + (6 - 2) ^ 2),
         10 - 7⟩ :=
  C15_HitToXv_XvToMv_general ⟨50, ⟨1, 2, 7⟩, 3, fun _ => true⟩ ⟨4, 6, 10⟩
    (by norm_num) (Real.sqrt_pos.mpr (by norm_num))

/-- C16 (frame of `CalcDhDa`). For `N >= 5`, a `2 x N` matrix `H` and a `3 x N`
matrix `J`, the call returns a matrix of the same dimensions in which every
entry other than `H[0][i]`, `H[1][i]` for `i < max 5 (N - 1)` and, when
`N = 6`, `H[0][5]`, has the value it had before the call; so for `N = 6` the
entry `H[1][5]` is unchanged and for `N >= 7` the whole last column is. -/
theorem C16_CalcDhDa_frame (L : DDCylinderMeasLayer ℝ) (vht : TKalMatrix ℝ)
    (xxv : TVector3 ℝ) (J H : TKalMatrix ℝ) (N : Nat) (hN : 5 ≤ N)
    (hJ : J.nrows = 3 ∧ J.ncols = N) (hH : H.nrows = 2 ∧ H.ncols = N) :
    ∃ H' : TKalMatrix ℝ, CalcDhDa L vht xxv J H = some H'
      ∧ H'.nrows = H.nrows ∧ H'.ncols = H.ncols
      ∧ (∀ r c, ¬ ((r = 0 ∨ r = 1) ∧ c < max 5 (N - 1)) → ¬ (N = 6 ∧ r = 0 ∧ c = 5) →
          H'.elem r c = H.elem r c)
      ∧ (N = 6 → H'.elem 1 5 = H.elem 1 5)
      ∧ (7 ≤ N → ∀ r, H'.elem r (N - 1) = H.elem r (N - 1)) := by
  obtain ⟨hJr, hJc⟩ := hJ
  obtain ⟨hHr, hHc⟩ := hH
  have frame : ∀ r c, ¬ ((r = 0 ∨ r = 1) ∧ c < max 5 (N - 1)) → ¬ (N = 6 ∧ r = 0 ∧ c = 5) →
      (if H.ncols = 6 ∧ r = 0 ∧ c = 5 then (0 : ℝ)
        else if c < max 5 (H.ncols - 1) then
          (if r = 0 then
            (-((xxv.Y - L.GetXc.Y)
                  / ((xxv.X - L.GetXc.X) * (xxv.X - L.GetXc.X)
                      + (xxv.Y - L.GetXc.Y) * (xxv.Y - L.GetXc.Y))) * J.elem 0 c
              + ((xxv.X - L.GetXc.X)
                  / ((xxv.X - L.GetXc.X) * (xxv.X - L.GetXc.X)
                      + (xxv.Y - L.GetXc.Y) * (xxv.Y - L.GetXc.Y))) * J.elem 1 c) * L.GetR
           else if r = 1 then J.elem 2 c else H.elem r c)
        else H.elem r c) = H.elem r c := by
    intro r c h1 h2
    rw [hHc, if_neg h2]
    by_cases hc : c < max 5 (N - 1)
    · have hr0 : r ≠ 0 := fun h => h1 ⟨Or.inl h, hc⟩
      have hr1 : r ≠ 1 := fun h => h1 ⟨Or.inr h, hc⟩
      rw [if_pos hc, if_neg hr0, if_neg hr1]
    · rw [if_neg hc]
  refine ⟨_, CalcDhDa_eq L vht xxv J H (by omega) (by omega) (by omega) (by omega),
    rfl, rfl, frame, ?_, ?_⟩
  · intro h6
    exact frame 1 5 (by omega) (by omega)
  · intro h7 r
    exact frame r (N - 1) (by omega) (by omega)

/-- Witness of C16: seven parameters; the last column of `H` keeps the value 7
in both rows. -/
theorem C16_CalcDhDa_frame_witness :
    ∃ H' : TKalMatrix ℝ,
      CalcDhDa (⟨50, ⟨0, 0, 0⟩, 3, fun _ => true⟩ : DDCylinderMeasLayer ℝ) ⟨2, 1, fun _ _ => 0⟩
          ⟨3, 4, 0⟩ ⟨3, 7, fun r c => (r : ℝ) + c⟩ ⟨2, 7, fun _ _ => 7⟩ = some H'
      ∧ H'.elem 0 6 = 7 ∧ H'.elem 1 6 = 7 := by
  obtain ⟨H', h, _, _, _, _, h7⟩ :=
    C16_CalcDhDa_frame ⟨50, ⟨0, 0, 0⟩, 3, fun _ => true⟩ ⟨2, 1, fun _ _ => 0⟩
      ⟨3, 4, 0⟩ ⟨3, 7, fun r c => (r : ℝ) + c⟩ ⟨2, 7, fun _ _ => 7⟩ 7 (by norm_num)
      ⟨rfl, rfl⟩ ⟨rfl, rfl⟩
  exact ⟨H', h, h7 (le_refl 7) 0, h7 (le_refl 7) 1⟩

/-- C17 (safety of `CalcDhDa`). For `N >= 5`, a `2 x N` matrix `H`, a `3 x N`
matrix `J` and a point off the axis, every matrix access the call makes is
within bounds, every division has a non-zero divisor (`xxyy` is not zero), and
the call returns. For `N = 4` the loop bound is `max 5 (4 - 1) = 5`, the call
accesses column 4 of `dxphiada` and of `H`, which is not less than `N`, and
does not return a matrix. -/
theorem C17_CalcDhDa_safety (L : DDCylinderMeasLayer ℝ) (vht : TKalMatrix ℝ)
    (xxv : TVector3 ℝ) (J H : TKalMatrix ℝ) (N : Nat) (hN : 5 ≤ N)
    (hJ : J.nrows = 3 ∧ J.ncols = N) (hH : H.nrows = 2 ∧ H.ncols = N)
    (hrho : 0 < (xxv.X - L.GetXc.X) ^ 2 + (xxv.Y - L.GetXc.Y) ^ 2) :
    (∀ e ∈ CalcDhDa.events L xxv H, e.inBounds J H ∧ e.divisorNonzero)
    ∧ (xxv.X - L.GetXc.X) * (xxv.X - L.GetXc.X)
        + (xxv.Y - L.GetXc.Y) * (xxv.Y - L.GetXc.Y) ≠ 0
    ∧ (∃ H' : TKalMatrix ℝ, CalcDhDa L vht xxv J H = some H')
    ∧ (∀ J4 H4 : TKalMatrix ℝ, J4.nrows = 3 ∧ J4.ncols = 4 → H4.nrows = 2 ∧ H4.ncols = 4 →
        max 5 (H4.GetNcols - 1) = 5
        ∧ CalcDhDa.Event.readJ 0 4 ∈ CalcDhDa.events L xxv H4
        ∧ ¬ (CalcDhDa.Event.readJ 0 4 : CalcDhDa.Event ℝ).inBounds J4 H4
        ∧ CalcDhDa.Event.accessH 0 4 ∈ CalcDhDa.events L xxv H4
        ∧ ¬ (CalcDhDa.Event.accessH 0 4 : CalcDhDa.Event ℝ).inBounds J4 H4
        ∧ CalcDhDa L vht xxv J4 H4 = none) := by
  obtain ⟨hJr, hJc⟩ := hJ
  obtain ⟨hHr, hHc⟩ := hH
  have hsome : ∃ H' : TKalMatrix ℝ, CalcDhDa L vht xxv J H = some H' :=
    ⟨_, CalcDhDa_eq L vht xxv J H (by omega) (by omega) (by omega) (by omega)⟩
  have hne : (xxv.X - L.GetXc.X) * (xxv.X - L.GetXc.X)
      + (xxv.Y - L.GetXc.Y) * (xxv.Y - L.GetXc.Y) ≠ 0 := by
    rw [← sq, ← sq]; exact ne_of_gt hrho
  refine ⟨?_, hne, hsome, ?_⟩
  · intro e he
    refine ⟨(CalcDhDa_some_iff L vht xxv J H).mp hsome e he, ?_⟩
    cases e with
    | readJ r c => trivial
    | accessH r c => trivial
    | divide a d =>
      have hd := events_divisor L xxv H _ he a d rfl
      simp only [CalcDhDa.Event.divisorNonzero]
      rw [hd]; exact hne
  · rintro J4 H4 ⟨hJ4r, hJ4c⟩ ⟨hH4r, hH4c⟩
    have hJ : CalcDhDa.Event.readJ 0 4 ∈ CalcDhDa.events L xxv H4 := by
      simp [CalcDhDa.events, TKalMatrix.GetNcols, hH4c, CalcDhDa.loopEvents,
        CalcDhDa.bodyEvents]
    have hH : CalcDhDa.Event.accessH 0 4 ∈ CalcDhDa.events L xxv H4 := by
      simp [CalcDhDa.events, TKalMatrix.GetNcols, hH4c, CalcDhDa.loopEvents,
        CalcDhDa.bodyEvents]
    have nJ : ¬ (CalcDhDa.Event.readJ 0 4 : CalcDhDa.Event ℝ).inBounds J4 H4 := by
      simp [CalcDhDa.Event.inBounds, hJ4c]
    have nH : ¬ (CalcDhDa.Event.accessH 0 4 : CalcDhDa.Event ℝ).inBounds J4 H4 := by
      simp [CalcDhDa.Event.inBounds, hH4c]
    refine ⟨by simp [TKalMatrix.GetNcols, hH4c], hJ, nJ, hH, nH, ?_⟩
    cases hc : CalcDhDa L vht xxv J4 H4 with
    | none => rfl
    | some H' =>
      exact absurd ((CalcDhDa_some_iff L vht xxv J4 H4).mp ⟨H', hc⟩ _ hJ) nJ

/-- Witness of C17: six parameters and the point `(3, 4, 0)`; for four
parameters the call on a `2 x 4` matrix does not return a matrix. -/
theorem C17_CalcDhDa_safety_witness :
    (∃ H' : TKalMatrix ℝ,
      CalcDhDa (⟨50, ⟨0, 0, 0⟩, 3, fun _ => true⟩ : DDCylinderMeasLayer ℝ) ⟨2, 1, fun _ _ => 0⟩
          ⟨3, 4, 0⟩ ⟨3, 6, fun r c => (r : ℝ) + c⟩ ⟨2, 6, fun _ _ => 7⟩ = some H')
    ∧ CalcDhDa (⟨50, ⟨0, 0, 0⟩, 3, fun _ => true⟩ : DDCylinderMeasLayer ℝ) ⟨2, 1, fun _ _ => 0⟩
          ⟨3, 4, 0⟩ ⟨3, 4, fun r c => (r : ℝ) + c⟩ ⟨2, 4, fun _ _ => 7⟩ = none :=
  ⟨(C17_CalcDhDa_safety ⟨50, ⟨0, 0, 0⟩, 3, fun _ => true⟩ ⟨2, 1, fun _ _ => 0⟩
      ⟨3, 4, 0⟩ ⟨3, 6, fun r c => (r : ℝ) + c⟩ ⟨2, 6, fun _ _ => 7⟩ 6 (by norm_num)
      ⟨rfl, rfl⟩ ⟨rfl, rfl⟩ (by norm_num)).2.2.1,
   ((C17_CalcDhDa_safety ⟨50, ⟨0, 0, 0⟩, 3, fun _ => true⟩ ⟨2, 1, fun _ _ => 0⟩
      ⟨3, 4, 0⟩ ⟨3, 6, fun r c => (r : ℝ) + c⟩ ⟨2, 6, fun _ _ => 7⟩ 6 (by norm_num)
      ⟨rfl, rfl⟩ ⟨rfl, rfl⟩ (by norm_num)).2.2.2
      ⟨3, 4, fun r c => (r : ℝ) + c⟩ ⟨2, 4, fun _ _ => 7⟩ ⟨rfl, rfl⟩ ⟨rfl, rfl⟩).2.2.2.2.2⟩

end DDKalTest
